import Mathlib

/-!
Verification of the `sql-string-builder` library (`src/query-string.ts`).

The TypeScript source is shallowly embedded as follows:

* JavaScript values interpolated into a query become `QueryValue`
  (strings, numbers — integers plus the non-self-equal `NaN` —, booleans,
  and boxed `UnsafeQueryLiteral` strings).  `jsStrictEq` models the strict
  equality `===` that `Array.prototype.indexOf` uses: primitives compare by
  value, `NaN` is equal to nothing (itself included), and a boxed
  `UnsafeQueryLiteral` object is never `===` to a primitive; two distinct
  boxed instances are likewise not `===` (reference equality; `build`
  never calls `indexOf` with a literal, so the latter case is inert).

* A `QueryStringBuilder`'s private field `queryTexts : string[] | string`
  is a mutable JavaScript array while the builder is unfinalized.  Because
  `clone()` hands the original's array to the constructor (which `shift()`s
  from it, or stores it without copying), array identity is observable, so
  arrays live in an explicit `Store` (a heap of `List String` cells indexed
  by `Nat`).  Every operation threads the store.  The `values` arrays are
  never shared between two builders (the constructor and `appendInternal`
  always create or extend a fresh copy), so they are embedded as plain
  lists.

* Fallible operations (the `assert`/`defined` calls of the source) return
  `Option`: `none` is the synchronously thrown error.
-/

namespace SqlSB

/-- A JavaScript value that can sit in a builder's `values` array:
strings, numbers (an integer, or the special non-self-equal `NaN`),
booleans, and `UnsafeQueryLiteral` boxed strings (`class UnsafeQueryLiteral
extends String`). -/
inductive QueryValue where
  | str (s : String)
  | int (n : Int)
  | bool (b : Bool)
  | nan
  | unsafeLit (s : String)
deriving Repr, DecidableEq

/-- The `v instanceof UnsafeQueryLiteral` runtime check. -/
def isUnsafeLit : QueryValue → Bool
  | .unsafeLit _ => true
  | _ => false

/-- `value.valueOf()` for an `UnsafeQueryLiteral`; irrelevant default elsewhere. -/
def unsafeText : QueryValue → String
  | .unsafeLit s => s
  | _ => ""

/-- `v` is an ordinary self-equal scalar (not `NaN`, not a boxed literal). -/
def isScalar : QueryValue → Bool
  | .str _ => true
  | .int _ => true
  | .bool _ => true
  | _ => false

/-- JavaScript strict equality `===` restricted to `QueryValue`, as used by
`Array.prototype.indexOf` in `build()`.  `NaN === x` is always false; a boxed
`UnsafeQueryLiteral` is an object, never `===` to a primitive, and two boxed
instances are compared by reference (modelled as `false`; `build()` never
looks a literal up with `indexOf`, so this case is never exercised). -/
def jsStrictEq : QueryValue → QueryValue → Bool
  | .str a, .str b => a == b
  | .int a, .int b => a == b
  | .bool a, .bool b => a == b
  | _, _ => false

/-- First index (from `i₀ = 0`) of an element satisfying `p`, or `none`. -/
def idxFrom (p : QueryValue → Bool) : List QueryValue → Option Nat
  | [] => none
  | x :: xs => if p x then some 0 else (idxFrom p xs).map (· + 1)

/-- `Array.prototype.indexOf`: first index of an element `===` to `v`,
or `-1` when there is none. -/
def jsIndexOf (l : List QueryValue) (v : QueryValue) : Int :=
  match idxFrom (fun x => jsStrictEq v x) l with
  | some k => (k : Int)
  | none => -1

/-! ### The store of mutable `string[]` cells -/

/-- A heap of JavaScript `string[]` arrays.  `mem` maps a cell index to its
contents, `next` is the next unallocated index. -/
structure Store where
  mem : Nat → List String
  next : Nat

def Store.read (σ : Store) (r : Nat) : List String := σ.mem r

def Store.write (σ : Store) (r : Nat) (l : List String) : Store :=
  ⟨fun i => if i = r then l else σ.mem i, σ.next⟩

/-- Allocate a fresh array cell holding `l`; returns the new store and the
cell's index. -/
def Store.alloc (σ : Store) (l : List String) : Store × Nat :=
  (⟨fun i => if i = σ.next then l else σ.mem i, σ.next + 1⟩, σ.next)

def emptyStore : Store := ⟨fun _ => [], 0⟩

/-- `Array.prototype.shift`: remove and return the first element, mutating
the cell; `none` models `shift()` returning `undefined` (which the source
turns into a thrown error via `defined(...)`). -/
def jsShift (σ : Store) (r : Nat) : Option (String × Store) :=
  match σ.read r with
  | [] => none
  | t :: rest => some (t, σ.write r rest)

/-! ### The builder -/

/-- The `queryTexts : string[] | string` field: a mutable array cell while
building, a completed string after `build()`. -/
inductive QTexts where
  | building (r : Nat)
  | built (s : String)
deriving Repr, DecidableEq

/-- `class QueryStringBuilder`.  `tokenForIndex` is the constructor's
placeholder function; `values` is `any[] | undefined`. -/
structure QueryStringBuilder where
  tokenForIndex : Int → String
  queryTexts : QTexts
  values : Option (List QueryValue)

/-- An argument of `appendInternal`: another builder, or a raw string. -/
inductive AppendPart where
  | builder (b : QueryStringBuilder)
  | raw (s : String)

/-- An element of the constructor's `values` argument: a nested builder
(spliced structurally) or an ordinary value. -/
inductive CtorValue where
  | builder (b : QueryStringBuilder)
  | plain (v : QueryValue)

/-- `l[l.length - 1] += s` for a JavaScript array (no-op on `[]`,
which the source never reaches). -/
def concatLast : List String → String → List String
  | [], _ => []
  | [a], s => [a ++ s]
  | a :: rest, s => a :: concatLast rest s

/-- `[...part.queryTexts]`: spreading a built builder's `string` field
yields its list of single-character strings. -/
def spreadChars (s : String) : List String := s.toList.map (fun c => String.mk [c])

/-- The `appendTexts` local of `appendInternal`. -/
def partTexts (σ : Store) : AppendPart → List String
  | .raw s => [s]
  | .builder p =>
    match p.queryTexts with
    | .building r => σ.read r
    | .built s => spreadChars s

/-- `QueryStringBuilder.appendInternal` (lines 46–70): fails (`assert`) on a
finalized builder; otherwise concatenates the part's first fragment onto the
last own fragment, pushes the rest, and appends the part's values. -/
def appendInternal (σ : Store) (b : QueryStringBuilder) (part : AppendPart) :
    Option (Store × QueryStringBuilder) :=
  match b.queryTexts with
  | .built _ => none
  | .building r =>
    let qts := σ.read r
    let ats := partTexts σ part
    let qts2 :=
      if qts.length = 0 then ats
      else
        match ats with
        | [] => qts
        | f :: rest => concatLast qts f ++ rest
    let vals2 :=
      match part with
      | .raw _ => b.values
      | .builder p =>
        match p.values with
        | none => b.values
        | some pv =>
          match b.values with
          | none => some pv
          | some mv => some (mv ++ pv)
    some (σ.write r qts2, { b with values := vals2 })

def QueryStringBuilder.append (σ : Store) (b : QueryStringBuilder)
    (part : QueryStringBuilder) : Option (Store × QueryStringBuilder) :=
  appendInternal σ b (.builder part)

def QueryStringBuilder.appendRawString (σ : Store) (b : QueryStringBuilder)
    (s : String) : Option (Store × QueryStringBuilder) :=
  appendInternal σ b (.raw s)

/-- The constructor's per-value loop (lines 31–41), followed by the final
`this.queryTexts.push(...queryTexts)`.  `srcRef` is the caller-supplied
`queryTexts` array being `shift()`ed from, `r` the builder's own fresh
array, `acc` its `values` so far. -/
def ctorLoop (tok : Int → String) (srcRef r : Nat) :
    List CtorValue → Store → List QueryValue → Option (Store × QueryStringBuilder)
  | [], σ, acc =>
    some (σ.write r (σ.read r ++ σ.read srcRef), ⟨tok, .building r, some acc⟩)
  | .plain q :: vs, σ, acc =>
    match jsShift σ srcRef with
    | none => none
    | some (t, σ') =>
      ctorLoop tok srcRef r vs (σ'.write r (σ'.read r ++ [t])) (acc ++ [q])
  | .builder p :: vs, σ, acc =>
    match appendInternal σ ⟨tok, .building r, some acc⟩ (.builder p) with
    | none => none
    | some (σ1, self1) =>
      match jsShift σ1 srcRef with
      | none => none
      | some (t, σ2) =>
        ctorLoop tok srcRef r vs (σ2.write r (concatLast (σ2.read r) t))
          (self1.values.getD [])

/-- The `QueryStringBuilder` constructor (lines 15–43).  With no values the
caller's array is stored as-is (shared, not copied); otherwise a fresh
array is filled by `shift()`ing fragments out of the caller's array.
`none` models the `defined(...)` assertion throwing. -/
def ctorFn (σ : Store) (tok : Int → String) (srcRef : Nat)
    (values : List CtorValue) : Option (Store × QueryStringBuilder) :=
  if values.isEmpty then some (σ, ⟨tok, .building srcRef, none⟩)
  else
    let a := σ.alloc []
    match jsShift a.1 srcRef with
    | none => none
    | some (t0, σ2) => ctorLoop tok srcRef a.2 values (σ2.write a.2 [t0]) []

/-- `QueryStringBuilder.clone` (lines 92–98): asserts the builder is not
finalized, then passes its own `queryTexts` array and `values` to the
constructor. -/
def QueryStringBuilder.clone (σ : Store) (b : QueryStringBuilder) :
    Option (Store × QueryStringBuilder) :=
  match b.queryTexts with
  | .built _ => none
  | .building r => ctorFn σ b.tokenForIndex r ((b.values.getD []).map .plain)

/-- The `sql` template tag's placeholder function: `i => "$" + (i + 1)`. -/
def sqlTok : Int → String := fun i => "$" ++ toString (i + 1)

/-- A tagged-template call `tag\`...\``: the (freshly copied, cf.
`[...queryTexts]`) literal fragments are allocated and handed to the
constructor together with the interpolated values. -/
def templateWith (tok : Int → String) (σ : Store) (texts : List String)
    (values : List CtorValue) : Option (Store × QueryStringBuilder) :=
  let a := σ.alloc texts
  ctorFn a.1 tok a.2 values

/-- The `sql` tagged template (lines 142–144). -/
def sql (σ : Store) (texts : List String) (values : List CtorValue) :
    Option (Store × QueryStringBuilder) :=
  templateWith sqlTok σ texts values

/-- `Array.prototype.splice(pi, 0, s)`: insert `s` at position `pi`
(clamped to the length, as JavaScript does). -/
def jsSpliceInsert (l : List String) (pi : Nat) (s : String) : List String :=
  l.take pi ++ s :: l.drop pi

/-- `array.join("")`. -/
def joinAll : List String → String
  | [] => ""
  | s :: rest => s ++ joinAll rest

/-- The token-insertion loop of `build()` (lines 107–124): `i` indexes the
shrinking `values` array, `pi` the splice position in `queryTexts`. -/
def buildLoop (tok : Int → String) (texts : List String) (vals : List QueryValue)
    (i pi : Nat) : List String × List QueryValue :=
  if h : i < vals.length then
    let v := vals[i]
    if isUnsafeLit v then
      buildLoop tok (jsSpliceInsert texts pi (unsafeText v)) (vals.eraseIdx i) i (pi + 2)
    else
      let vi := jsIndexOf vals v
      if vi = (i : Int) then
        buildLoop tok (jsSpliceInsert texts pi (tok vi)) vals (i + 1) (pi + 2)
      else
        buildLoop tok (jsSpliceInsert texts pi (tok vi)) (vals.eraseIdx i) i (pi + 2)
  else (texts, vals)
termination_by vals.length - i
decreasing_by
  · simp only [List.length_eraseIdx_of_lt h]; omega
  · omega
  · simp only [List.length_eraseIdx_of_lt h]; omega

/-- The body of `build()` on an unfinalized builder: the final fragment
array (for the in-place `splice` mutations), the joined query text, and the
resulting `values` (`none` for the `values === undefined || length === 0`
branch — note that a nonempty `values` that shrinks to `[]` in the loop is
returned as `some []`, not `none`). -/
def buildCore (tok : Int → String) (texts : List String)
    (values : Option (List QueryValue)) :
    List String × String × Option (List QueryValue) :=
  match values with
  | none => (texts, joinAll texts, none)
  | some [] => (texts, joinAll texts, none)
  | some vals =>
    let r := buildLoop tok texts vals 0 1
    (r.1, joinAll r.1, some r.2)

/-- `QueryStringBuilder.build` (lines 100–133): idempotent finalization.
Returns the (possibly updated) store, the frozen builder, and the
`[queryText, values]` pair. -/
def QueryStringBuilder.build (σ : Store) (b : QueryStringBuilder) :
    Store × QueryStringBuilder × String × Option (List QueryValue) :=
  match b.queryTexts with
  | .built s => (σ, b, s, b.values)
  | .building r =>
    let c := buildCore b.tokenForIndex (σ.read r) b.values
    (σ.write r c.1, { b with queryTexts := .built c.2.1, values := c.2.2 },
      c.2.1, c.2.2)

/-- The built query text of `b` (observable output of `build()`). -/
def buildText (σ : Store) (b : QueryStringBuilder) : String :=
  (QueryStringBuilder.build σ b).2.2.1

/-- The built values of `b` (observable output of `build()`). -/
def buildValues (σ : Store) (b : QueryStringBuilder) : Option (List QueryValue) :=
  (QueryStringBuilder.build σ b).2.2.2

/-- `joinSQL` (lines 146–151): asserts a nonempty item list, then left-folds
`sql\`${a}${separatorLiteral}${b}\`` over the items, reusing one
`UnsafeQueryLiteral` for the separator. -/
def joinSQL (σ : Store) (items : List QueryStringBuilder) (separator : String) :
    Option (Store × QueryStringBuilder) :=
  match items with
  | [] => none
  | first :: rest =>
    rest.foldlM
      (fun (acc : Store × QueryStringBuilder) b =>
        sql acc.1 ["", "", "", ""]
          [.builder acc.2, .plain (.unsafeLit separator), .builder b])
      (σ, first)

def commaJoinSQL (σ : Store) (items : List QueryStringBuilder) :
    Option (Store × QueryStringBuilder) :=
  joinSQL σ items ", "

/-- `commaJoinStringsToSQL` (lines 157–159): each string becomes the
single-value builder `sql\`${s}\``, then the list is comma-joined. -/
def commaJoinStringsToSQL (σ : Store) (strings : List String) :
    Option (Store × QueryStringBuilder) :=
  match strings.foldlM
      (fun (acc : Store × List QueryStringBuilder) s =>
        match sql acc.1 ["", ""] [.plain (.str s)] with
        | none => none
        | some (σ', b) => some (σ', acc.2 ++ [b]))
      ((σ, []) : Store × List QueryStringBuilder) with
  | none => none
  | some (σ', bs) => commaJoinSQL σ' bs

/-! ### Observable-state helpers used by the claims -/

/-- Number of stored fragments of an unfinalized builder. -/
def fragCount (σ : Store) (b : QueryStringBuilder) : Nat :=
  match b.queryTexts with
  | .building r => (σ.read r).length
  | .built _ => 0

/-- Number of stored values (`undefined` counts as zero). -/
def valCount (b : QueryStringBuilder) : Nat := (b.values.getD []).length

/-- The spec's fragment/value count invariant for an unfinalized builder. -/
def FragValInv (σ : Store) (b : QueryStringBuilder) : Prop :=
  fragCount σ b = valCount b + 1

/-! ### Derived description of the `build()` loop

`buildLoop` is proved below to compute, per original value occurrence, one
emitted string (`stepEmit`) interleaved with the remaining fragments, while
the values array shrinks to the list `finalD` of kept first occurrences
(`stepD`). -/

/-- First index of an element of `d` that is `===` to `v`. -/
def firstIdx (d : List QueryValue) (v : QueryValue) : Option Nat :=
  idxFrom (fun x => jsStrictEq v x) d

/-- The string spliced into the fragments for occurrence `v`, given the
already-kept values `d`: the literal's raw text, or the token for the first
`===`-equal index (`-1` when the value is equal to nothing, e.g. `NaN`). -/
def stepEmit (tok : Int → String) (d : List QueryValue) (v : QueryValue) : String :=
  if isUnsafeLit v then unsafeText v
  else
    match firstIdx d v with
    | some k => tok (k : Int)
    | none => if jsStrictEq v v then tok (d.length : Int) else tok (-1)

/-- How the kept values evolve at occurrence `v`: only a first occurrence of
a self-equal non-literal value is kept. -/
def stepD (d : List QueryValue) (v : QueryValue) : List QueryValue :=
  if isUnsafeLit v then d
  else
    match firstIdx d v with
    | some _ => d
    | none => if jsStrictEq v v then d ++ [v] else d

/-- The emitted strings for the occurrence list `s`, starting from kept
values `d`. -/
def emits (tok : Int → String) : List QueryValue → List QueryValue → List String
  | _, [] => []
  | d, v :: s => stepEmit tok d v :: emits tok (stepD d v) s

/-- The final (de-duplicated, literal-free) values after processing `s`. -/
def finalD : List QueryValue → List QueryValue → List QueryValue
  | d, [] => d
  | d, v :: s => finalD (stepD d v) s

/-- Interleave emitted strings with the remaining fragments, one emitted
string before each fragment. -/
def interleave : List String → List String → List String
  | [], todo => todo
  | e :: es, [] => e :: interleave es []
  | e :: es, t :: ts => e :: t :: interleave es ts

/-- Number of elements of `l` that are `===` to `v`. -/
def jsCount (l : List QueryValue) (v : QueryValue) : Nat :=
  (l.filter (fun w => jsStrictEq v w)).length

/-- No two elements of `l` are `===` to each other. -/
def NoJsDup (l : List QueryValue) : Prop :=
  l.Pairwise (fun a b => jsStrictEq a b = false)

/-! ### Basic lemmas -/

theorem jsStrictEq_iff {a b : QueryValue} :
    jsStrictEq a b = true ↔ a = b ∧ isScalar a = true := by
  cases a <;> cases b <;> simp [jsStrictEq, isScalar]

theorem jsStrictEq_self_of_scalar {v : QueryValue} (h : isScalar v = true) :
    jsStrictEq v v = true := jsStrictEq_iff.mpr ⟨rfl, h⟩

theorem jsStrictEq_false_of_not_scalar {v : QueryValue} (h : ¬ isScalar v = true)
    (x : QueryValue) : jsStrictEq v x = false := by
  cases hx : jsStrictEq v x
  · rfl
  · exact absurd (jsStrictEq_iff.mp hx).2 h

theorem idxFrom_cons (p : QueryValue → Bool) (x : QueryValue) (xs : List QueryValue) :
    idxFrom p (x :: xs) =
      if p x then some 0 else (idxFrom p xs).map (· + 1) := rfl

theorem idxFrom_append_some {p : QueryValue → Bool} {d : List QueryValue} {k : Nat}
    (h : idxFrom p d = some k) (l : List QueryValue) :
    idxFrom p (d ++ l) = some k := by
  induction d generalizing k with
  | nil => simp [idxFrom] at h
  | cons x xs ih =>
    rw [List.cons_append, idxFrom_cons]
    rw [idxFrom_cons] at h
    cases hp : p x with
    | true => simpa [hp] using h
    | false =>
      simp only [hp, Bool.false_eq_true, if_false] at h ⊢
      cases hi : idxFrom p xs with
      | none => simp [hi] at h
      | some k' =>
        simp only [hi, Option.map_some'] at h
        simp [ih hi, ← h]

theorem idxFrom_append_none {p : QueryValue → Bool} {d : List QueryValue}
    (h : idxFrom p d = none) (l : List QueryValue) :
    idxFrom p (d ++ l) = (idxFrom p l).map (· + d.length) := by
  induction d with
  | nil => simp [idxFrom]
  | cons x xs ih =>
    rw [List.cons_append, idxFrom_cons]
    rw [idxFrom_cons] at h
    cases hp : p x with
    | true => simp [hp] at h
    | false =>
      simp only [hp, Bool.false_eq_true, if_false] at h ⊢
      cases hi : idxFrom p xs with
      | some k' => simp [hi] at h
      | none =>
        simp only [ih hi, Option.map_map, List.length_cons]
        cases idxFrom p l
        · simp
        · simp only [Option.map_some', Option.some.injEq, Function.comp]
          omega

theorem idxFrom_lt_length {p : QueryValue → Bool} {d : List QueryValue} {k : Nat}
    (h : idxFrom p d = some k) : k < d.length := by
  induction d generalizing k with
  | nil => simp [idxFrom] at h
  | cons x xs ih =>
    rw [idxFrom_cons] at h
    cases hp : p x with
    | true =>
      simp only [hp, if_true, Option.some.injEq] at h
      simp only [List.length_cons, ← h]
      omega
    | false =>
      simp only [hp, Bool.false_eq_true, if_false] at h
      cases hi : idxFrom p xs with
      | none => simp [hi] at h
      | some k' =>
        simp only [hi, Option.map_some', Option.some.injEq] at h
        have := ih hi
        simp only [List.length_cons]
        omega

theorem idxFrom_none_iff {p : QueryValue → Bool} {l : List QueryValue} :
    idxFrom p l = none ↔ ∀ x ∈ l, p x = false := by
  induction l with
  | nil => simp [idxFrom]
  | cons x xs ih =>
    rw [idxFrom_cons]
    cases hp : p x with
    | true => simp [hp]
    | false =>
      simp only [hp, Bool.false_eq_true, if_false, Option.map_eq_none', ih]
      simp [hp]

theorem idxFrom_some_sat {p : QueryValue → Bool} {d : List QueryValue} {k : Nat}
    (h : idxFrom p d = some k) :
    ∃ w ∈ d, p w = true := by
  induction d generalizing k with
  | nil => simp [idxFrom] at h
  | cons x xs ih =>
    rw [idxFrom_cons] at h
    cases hp : p x with
    | true => exact ⟨x, List.mem_cons_self x xs, hp⟩
    | false =>
      simp only [hp, Bool.false_eq_true, if_false] at h
      cases hi : idxFrom p xs with
      | none => simp [hi] at h
      | some k' =>
        obtain ⟨w, hw, hpw⟩ := ih hi
        exact ⟨w, List.mem_cons_of_mem x hw, hpw⟩

theorem jsIndexOf_append_of_some {v : QueryValue} {d : List QueryValue} {k : Nat}
    (h : firstIdx d v = some k) (l : List QueryValue) :
    jsIndexOf (d ++ l) v = (k : Int) := by
  simp [jsIndexOf, idxFrom_append_some h l]

theorem jsIndexOf_append_self {v : QueryValue} {d : List QueryValue}
    (h : firstIdx d v = none) (hv : jsStrictEq v v = true) (s : List QueryValue) :
    jsIndexOf (d ++ v :: s) v = (d.length : Int) := by
  rw [jsIndexOf, idxFrom_append_none h]
  simp [idxFrom, hv]

theorem jsIndexOf_neg {v : QueryValue} (h : ∀ x, jsStrictEq v x = false)
    (l : List QueryValue) : jsIndexOf l v = -1 := by
  rw [jsIndexOf]
  have : idxFrom (fun x => jsStrictEq v x) l = none := idxFrom_none_iff.mpr fun x _ => h x
  simp [this]

theorem getElem_append_length {d s : List QueryValue} {v : QueryValue}
    (h : d.length < (d ++ v :: s).length) : (d ++ v :: s)[d.length] = v := by
  rw [List.getElem_append_right (Nat.le_refl _)]; simp

theorem eraseIdx_append_length (d s : List QueryValue) (v : QueryValue) :
    (d ++ v :: s).eraseIdx d.length = d ++ s := by
  simp [List.eraseIdx_append_of_length_le (Nat.le_refl _)]

theorem jsSpliceInsert_append (done todo : List String) (x : String) :
    jsSpliceInsert (done ++ todo) done.length x = done ++ x :: todo := by
  simp [jsSpliceInsert, List.take_left, List.drop_left]

/-- One unfolding of `buildLoop`. -/
theorem buildLoop_eq (tok : Int → String) (texts : List String)
    (vals : List QueryValue) (i pi : Nat) :
    buildLoop tok texts vals i pi =
      if h : i < vals.length then
        let v := vals[i]
        if isUnsafeLit v then
          buildLoop tok (jsSpliceInsert texts pi (unsafeText v)) (vals.eraseIdx i) i (pi + 2)
        else
          let vi := jsIndexOf vals v
          if vi = (i : Int) then
            buildLoop tok (jsSpliceInsert texts pi (tok vi)) vals (i + 1) (pi + 2)
          else
            buildLoop tok (jsSpliceInsert texts pi (tok vi)) (vals.eraseIdx i) i (pi + 2)
      else (texts, vals) := by
  rw [buildLoop]

/-- Main characterization of the `build()` loop: starting with kept prefix
`d` and remaining occurrences `s` (the current `values` array being
`d ++ s`), with the already-finished fragments `done` (splice position
`done.length`) and remaining fragments `todo`, the loop interleaves
`emits` with `todo` and shrinks the values to `finalD d s`. -/
theorem buildLoop_split (tok : Int → String) :
    ∀ (s d : List QueryValue) (done todo : List String),
      s.length ≤ todo.length →
      buildLoop tok (done ++ todo) (d ++ s) d.length done.length
        = (done ++ interleave (emits tok d s) todo, finalD d s) := by
  intro s
  induction s with
  | nil =>
    intro d done todo _
    rw [buildLoop_eq]
    simp [emits, interleave, finalD]
  | cons v s' ih =>
    intro d done todo hlen
    cases todo with
    | nil => simp at hlen
    | cons t ts =>
      have hts : s'.length ≤ ts.length := by
        simpa using hlen
      have hi : d.length < (d ++ v :: s').length := by
        rw [List.length_append, List.length_cons]; omega
      rw [buildLoop_eq]
      rw [dif_pos hi]
      simp only [getElem_append_length hi]
      by_cases hu : isUnsafeLit v = true
      · rw [if_pos hu]
        rw [jsSpliceInsert_append, eraseIdx_append_length]
        have hre : done ++ unsafeText v :: t :: ts
            = (done ++ [unsafeText v, t]) ++ ts := by simp
        have hlen2 : done.length + 2 = (done ++ [unsafeText v, t]).length := by
          simp
        rw [hre, hlen2, ih d (done ++ [unsafeText v, t]) ts hts]
        simp [emits, finalD, stepEmit, stepD, hu, interleave]
      · rw [if_neg hu]
        replace hu : isUnsafeLit v = false := by
          cases h : isUnsafeLit v
          · rfl
          · exact absurd h hu
        cases hf : firstIdx d v with
        | some k =>
          have hvi : jsIndexOf (d ++ v :: s') v = (k : Int) :=
            jsIndexOf_append_of_some hf _
          have hklt : k < d.length := idxFrom_lt_length hf
          have hne : ¬ ((k : Int) = (d.length : Int)) := by omega
          rw [hvi, if_neg hne]
          rw [jsSpliceInsert_append, eraseIdx_append_length]
          have hre : done ++ tok (k : Int) :: t :: ts
              = (done ++ [tok (k : Int), t]) ++ ts := by simp
          have hlen2 : done.length + 2 = (done ++ [tok (k : Int), t]).length := by
            simp
          rw [hre, hlen2, ih d (done ++ [tok (k : Int), t]) ts hts]
          simp [emits, finalD, stepEmit, stepD, hu, hf, interleave]
        | none =>
          by_cases hs : jsStrictEq v v = true
          · have hvi : jsIndexOf (d ++ v :: s') v = (d.length : Int) :=
              jsIndexOf_append_self hf hs s'
            rw [hvi, if_pos rfl]
            rw [jsSpliceInsert_append]
            have hre : done ++ tok (d.length : Int) :: t :: ts
                = (done ++ [tok (d.length : Int), t]) ++ ts := by simp
            have hre2 : d ++ v :: s' = (d ++ [v]) ++ s' := by simp
            have hlen2 : done.length + 2
                = (done ++ [tok (d.length : Int), t]).length := by simp
            have hlen3 : d.length + 1 = (d ++ [v]).length := by simp
            rw [hre, hre2, hlen2, hlen3,
              ih (d ++ [v]) (done ++ [tok (d.length : Int), t]) ts hts]
            simp [emits, finalD, stepEmit, stepD, hu, hf, hs, interleave]
          · have hnotscalar : ¬ isScalar v = true := by
              intro hsc
              exact hs (jsStrictEq_self_of_scalar hsc)
            have hall : ∀ x, jsStrictEq v x = false :=
              jsStrictEq_false_of_not_scalar hnotscalar
            have hvi : jsIndexOf (d ++ v :: s') v = -1 := jsIndexOf_neg hall _
            have hne : ¬ ((-1 : Int) = (d.length : Int)) := by omega
            rw [hvi, if_neg hne]
            rw [jsSpliceInsert_append, eraseIdx_append_length]
            have hre : done ++ tok (-1) :: t :: ts
                = (done ++ [tok (-1), t]) ++ ts := by simp
            have hlen2 : done.length + 2 = (done ++ [tok (-1), t]).length := by
              simp
            rw [hre, hlen2, ih d (done ++ [tok (-1), t]) ts hts]
            replace hs : jsStrictEq v v = false := by
              cases h : jsStrictEq v v
              · rfl
              · exact absurd h hs
            simp [emits, finalD, stepEmit, stepD, hu, hf, hs, interleave]

/-! ### Algebra of the derived functions -/

theorem joinAll_append (a b : List String) :
    joinAll (a ++ b) = joinAll a ++ joinAll b := by
  induction a with
  | nil => simp [joinAll]
  | cons x xs ih => simp [joinAll, ih, String.append_assoc]

theorem concatLast_append_right (A B : List String) (x : String) (h : B ≠ []) :
    concatLast (A ++ B) x = A ++ concatLast B x := by
  induction A with
  | nil => simp
  | cons a A' ih =>
    cases A' with
    | nil =>
      cases B with
      | nil => exact absurd rfl h
      | cons b B' => simp [concatLast]
    | cons a' A'' =>
      have : concatLast ((a :: a' :: A'') ++ B) x
          = a :: concatLast ((a' :: A'') ++ B) x := by
        cases B <;> simp [concatLast]
      rw [this, ih]
      simp

theorem joinAll_concatLast (l : List String) (x : String) (h : l ≠ []) :
    joinAll (concatLast l x) = joinAll l ++ x := by
  induction l with
  | nil => exact absurd rfl h
  | cons a l' ih =>
    cases l' with
    | nil => simp [concatLast, joinAll]
    | cons b l'' =>
      have hne : (b :: l'') ≠ ([] : List String) := by simp
      simp only [concatLast, joinAll, ih hne, String.append_assoc]

theorem interleave_concatLast (es : List String) :
    ∀ (L : List String) (x : String), es.length ≤ L.length → L ≠ [] →
      interleave es (concatLast L x) = concatLast (interleave es L) x := by
  induction es with
  | nil => intro L x _ _; simp [interleave]
  | cons e es' ih =>
    intro L x hlen hne
    cases L with
    | nil => exact absurd rfl hne
    | cons t L' =>
      cases L' with
      | nil =>
        have : es' = [] := by simpa using hlen
        subst this
        simp [interleave, concatLast]
      | cons t' L'' =>
        have hlen' : es'.length ≤ (t' :: L'').length := by
          simp at hlen ⊢; omega
        have hne' : (t' :: L'') ≠ ([] : List String) := by simp
        have h1 : concatLast (t :: t' :: L'') x = t :: concatLast (t' :: L'') x := by
          simp [concatLast]
        rw [h1]
        have h2 : interleave (e :: es') (t :: concatLast (t' :: L'') x)
            = e :: t :: interleave es' (concatLast (t' :: L'') x) := rfl
        rw [h2, ih (t' :: L'') x hlen' hne']
        have h3 : interleave (e :: es') (t :: t' :: L'')
            = e :: t :: interleave es' (t' :: L'') := rfl
        rw [h3]
        have : interleave es' (t' :: L'') ≠ [] := by
          cases es' <;> simp [interleave]
        cases hil : interleave es' (t' :: L'') with
        | nil => exact absurd hil this
        | cons z zs => simp [concatLast]

theorem interleave_append {e1 : List String} :
    ∀ {t1 : List String}, e1.length = t1.length →
      ∀ (e2 t2 : List String),
        interleave (e1 ++ e2) (t1 ++ t2) = interleave e1 t1 ++ interleave e2 t2 := by
  induction e1 with
  | nil =>
    intro t1 h e2 t2
    have : t1 = [] := List.length_eq_zero.mp h.symm
    subst this
    simp [interleave]
  | cons e es ih =>
    intro t1 h e2 t2
    cases t1 with
    | nil => simp at h
    | cons t ts =>
      have h' : es.length = ts.length := by simpa using h
      show e :: t :: interleave (es ++ e2) (ts ++ t2)
          = e :: t :: (interleave es ts ++ interleave e2 t2)
      rw [ih h' e2 t2]

theorem finalD_append (d s1 s2 : List QueryValue) :
    finalD d (s1 ++ s2) = finalD (finalD d s1) s2 := by
  induction s1 generalizing d with
  | nil => simp [finalD]
  | cons v s1' ih => simp [finalD, ih]

theorem emits_append (tok : Int → String) (d s1 s2 : List QueryValue) :
    emits tok d (s1 ++ s2) = emits tok d s1 ++ emits tok (finalD d s1) s2 := by
  induction s1 generalizing d with
  | nil => simp [emits, finalD]
  | cons v s1' ih => simp [emits, finalD, ih]

theorem finalD_prefix (s d : List QueryValue) :
    ∃ e, finalD d s = d ++ e ∧ e.Sublist s := by
  induction s generalizing d with
  | nil => exact ⟨[], by simp [finalD]⟩
  | cons v s' ih =>
    have hstep : stepD d v = d ∨ stepD d v = d ++ [v] := by
      rw [stepD]
      by_cases hu : isUnsafeLit v = true
      · simp [hu]
      · simp only [hu]
        cases firstIdx d v
        · by_cases hs : jsStrictEq v v = true <;> simp [hs]
        · simp
    obtain ⟨e, he, hsub⟩ := ih (stepD d v)
    rcases hstep with h | h
    · refine ⟨e, ?_, hsub.cons v⟩
      simp only [finalD]
      rw [h] at he ⊢
      exact he
    · refine ⟨v :: e, ?_, hsub.cons₂ v⟩
      simp only [finalD]
      rw [h] at he ⊢
      rw [he]
      simp

theorem emits_length (tok : Int → String) :
    ∀ (s d : List QueryValue), (emits tok d s).length = s.length := by
  intro s
  induction s with
  | nil => intro d; simp [emits]
  | cons v s' ih => intro d; simp [emits, ih]

/-! ### De-duplication properties -/

theorem jsStrictEq_comm (a b : QueryValue) : jsStrictEq a b = jsStrictEq b a := by
  cases ha : jsStrictEq a b with
  | true =>
    obtain ⟨rfl, _⟩ := jsStrictEq_iff.mp ha
    exact ha.symm
  | false =>
    cases hb : jsStrictEq b a with
    | false => rfl
    | true =>
      obtain ⟨rfl, _⟩ := jsStrictEq_iff.mp hb
      rw [ha] at hb
      exact absurd hb (by simp)

theorem stepD_cases (d : List QueryValue) (v : QueryValue) :
    stepD d v = d ∨
      (stepD d v = d ++ [v] ∧ firstIdx d v = none ∧ jsStrictEq v v = true) := by
  rw [stepD]
  by_cases hu : isUnsafeLit v = true
  · simp [hu]
  · simp only [hu, Bool.false_eq_true, if_false]
    cases hf : firstIdx d v with
    | some k => simp
    | none =>
      by_cases hs : jsStrictEq v v = true
      · simp [hs, hf]
      · simp [hs]

theorem NoJsDup_stepD {d : List QueryValue} (h : NoJsDup d) (v : QueryValue) :
    NoJsDup (stepD d v) := by
  rcases stepD_cases d v with hc | ⟨hc, hf, _⟩
  · rwa [hc]
  · rw [hc]
    rw [NoJsDup, List.pairwise_append]
    refine ⟨h, by simp [NoJsDup], ?_⟩
    intro a ha b hb
    simp only [List.mem_singleton] at hb
    subst hb
    have := idxFrom_none_iff.mp hf a ha
    rw [jsStrictEq_comm]
    exact this

theorem NoJsDup_finalD {d : List QueryValue} (h : NoJsDup d) (s : List QueryValue) :
    NoJsDup (finalD d s) := by
  induction s generalizing d with
  | nil => exact h
  | cons v s' ih => exact ih (NoJsDup_stepD h v)

theorem mem_finalD_of_mem {v : QueryValue} :
    ∀ (s d : List QueryValue),
      ((v ∈ s ∧ jsStrictEq v v = true) ∨ (∃ w ∈ d, jsStrictEq v w = true)) →
      ∃ w ∈ finalD d s, jsStrictEq v w = true := by
  intro s
  induction s with
  | nil =>
    intro d h
    rcases h with ⟨hm, _⟩ | h
    · simp at hm
    · simpa [finalD] using h
  | cons v' s' ih =>
    intro d h
    have hd_sub : ∀ w, w ∈ d → w ∈ stepD d v' := by
      intro w hw
      rcases stepD_cases d v' with hc | ⟨hc, _, _⟩ <;> rw [hc] <;> simp [hw]
    rcases h with ⟨hm, hself⟩ | ⟨w, hw, hvw⟩
    · rcases List.mem_cons.mp hm with rfl | hm'
      · cases hf : firstIdx d v with
        | some k =>
          obtain ⟨w, hw, hpw⟩ := idxFrom_some_sat hf
          exact ih (stepD d v) (Or.inr ⟨w, hd_sub w hw, hpw⟩)
        | none =>
          rcases stepD_cases d v with hc | ⟨hc, _, _⟩
          · rw [stepD, hf] at hc
            by_cases hu : isUnsafeLit v = true
            · rw [jsStrictEq_iff] at hself
              cases v <;> simp [isUnsafeLit] at hu <;> simp [isScalar] at hself
            · simp only [hu, Bool.false_eq_true, if_false, hself, if_true] at hc
              exact absurd hc.symm (by simp)
          · refine ih (stepD d v) (Or.inr ⟨v, ?_, hself⟩)
            rw [hc]
            simp
      · exact ih (stepD d v') (Or.inl ⟨hm', hself⟩)
    · exact ih (stepD d v') (Or.inr ⟨w, hd_sub w hw, hvw⟩)

theorem jsCount_eq_one {v : QueryValue} :
    ∀ {l : List QueryValue}, NoJsDup l →
      (∃ w ∈ l, jsStrictEq v w = true) → jsCount l v = 1 := by
  intro l
  induction l with
  | nil => intro _ h; simp at h
  | cons x xs ih =>
    intro hn hm
    have hxs_pair : NoJsDup xs := (List.pairwise_cons.mp hn).2
    have hx_rest : ∀ w ∈ xs, jsStrictEq x w = false := (List.pairwise_cons.mp hn).1
    cases hvx : jsStrictEq v x with
    | true =>
      obtain ⟨rfl, _⟩ := jsStrictEq_iff.mp hvx
      have hfilter : xs.filter (fun w => jsStrictEq v w) = [] := by
        apply List.filter_eq_nil_iff.mpr
        intro w hw
        simp [hx_rest w hw]
      rw [jsCount, List.filter_cons, if_pos (by simp [hvx]), hfilter]
      simp
    | false =>
      have hm' : ∃ w ∈ xs, jsStrictEq v w = true := by
        rcases hm with ⟨w, hw, hvw⟩
        rcases List.mem_cons.mp hw with rfl | hw'
        · rw [hvx] at hvw; exact absurd hvw (by simp)
        · exact ⟨w, hw', hvw⟩
      rw [jsCount, List.filter_cons, if_neg (by simp [hvx])]
      exact ih hxs_pair hm'

theorem emits_map (tok : Int → String) :
    ∀ (s d : List QueryValue), (∀ v ∈ s, isScalar v = true) →
      emits tok d s = s.map (fun v => tok (jsIndexOf (finalD d s) v)) := by
  intro s
  induction s with
  | nil => intro d _; simp [emits]
  | cons v s' ih =>
    intro d hsc
    have hv : isScalar v = true := hsc v (List.mem_cons_self v s')
    have hs' : ∀ w ∈ s', isScalar w = true := fun w hw =>
      hsc w (List.mem_cons_of_mem v hw)
    have hu : isUnsafeLit v = false := by
      cases v <;> simp [isUnsafeLit] <;> simp [isScalar] at hv
    have hself : jsStrictEq v v = true := jsStrictEq_self_of_scalar hv
    simp only [emits, List.map_cons]
    have htail : emits tok (stepD d v) s'
        = s'.map (fun w => tok (jsIndexOf (finalD (stepD d v) s') w)) :=
      ih (stepD d v) hs'
    have hfinal : finalD d (v :: s') = finalD (stepD d v) s' := rfl
    rw [hfinal, htail]
    congr 1
    cases hf : firstIdx d v with
    | some k =>
      have hd : stepD d v = d := by
        rw [stepD, hf]
        simp [hu]
      obtain ⟨e, he, _⟩ := finalD_prefix s' (stepD d v)
      have he' : finalD (stepD d v) s' = d ++ e := by rw [he, hd]
      have hidx : jsIndexOf (finalD (stepD d v) s') v = (k : Int) := by
        rw [he']
        exact jsIndexOf_append_of_some hf e
      simp [stepEmit, hu, hf, hidx]
    | none =>
      have hd : stepD d v = d ++ [v] := by
        rw [stepD, hf]
        simp [hu, hself]
      obtain ⟨e, he, _⟩ := finalD_prefix s' (stepD d v)
      have he2 : finalD (stepD d v) s' = d ++ v :: e := by
        rw [he, hd]; simp
      have hidx : jsIndexOf (finalD (stepD d v) s') v = (d.length : Int) := by
        rw [he2]
        exact jsIndexOf_append_self hf hself e
      simp [stepEmit, hu, hf, hself, hidx]

/-- No boxed literal ever enters the kept values. -/
theorem no_unsafeLit_finalD :
    ∀ (s d : List QueryValue), (∀ w ∈ d, isUnsafeLit w = false) →
      ∀ w ∈ finalD d s, isUnsafeLit w = false := by
  intro s
  induction s with
  | nil => intro d hd; exact hd
  | cons v s' ih =>
    intro d hd
    apply ih (stepD d v)
    rcases stepD_cases d v with hc | ⟨hc, _, hself⟩
    · rwa [hc]
    · rw [hc]
      intro w hw
      rcases List.mem_append.mp hw with hw' | hw'
      · exact hd w hw'
      · simp only [List.mem_singleton] at hw'
        subst hw'
        have := (jsStrictEq_iff.mp hself).2
        cases w <;> simp [isUnsafeLit] <;> simp [isScalar] at this

/-- `NaN` never enters the kept values. -/
theorem nan_not_mem_finalD :
    ∀ (s d : List QueryValue), QueryValue.nan ∉ d →
      QueryValue.nan ∉ finalD d s := by
  intro s
  induction s with
  | nil => intro d hd; exact hd
  | cons v s' ih =>
    intro d hd
    apply ih (stepD d v)
    rcases stepD_cases d v with hc | ⟨hc, _, hself⟩
    · rwa [hc]
    · rw [hc]
      intro hmem
      rcases List.mem_append.mp hmem with hw' | hw'
      · exact hd hw'
      · simp only [List.mem_singleton] at hw'
        rw [← hw'] at hself
        simp [jsStrictEq] at hself

/-! ### From `buildCore` to the loop characterization -/

theorem buildCore_eq_spec (tok : Int → String) (t0 : String) (rest : List String)
    (vals : List QueryValue) (hne : vals ≠ []) (hlen : vals.length ≤ rest.length) :
    buildCore tok (t0 :: rest) (some vals)
      = (t0 :: interleave (emits tok [] vals) rest,
          joinAll (t0 :: interleave (emits tok [] vals) rest),
          some (finalD [] vals)) := by
  cases vals with
  | nil => exact absurd rfl hne
  | cons v vs =>
    show buildCore tok (t0 :: rest) (some (v :: vs)) = _
    have h := buildLoop_split tok (v :: vs) [] [t0] rest hlen
    simp only [List.nil_append, List.singleton_append, List.length_nil,
      List.length_cons, List.length_singleton] at h
    rw [buildCore]
    · rw [show (0 + 1 : Nat) = 1 from rfl] at h
      rw [h]
    · simp

/-! ### Store lemmas -/

@[simp] theorem Store.read_write_self (σ : Store) (r : Nat) (l : List String) :
    (σ.write r l).read r = l := by
  simp [Store.read, Store.write]

theorem Store.read_write_ne (σ : Store) {r r' : Nat} (l : List String)
    (h : r' ≠ r) : (σ.write r l).read r' = σ.read r' := by
  simp [Store.read, Store.write, h]

@[simp] theorem Store.next_write (σ : Store) (r : Nat) (l : List String) :
    (σ.write r l).next = σ.next := rfl

@[simp] theorem Store.alloc_snd (σ : Store) (l : List String) :
    (σ.alloc l).2 = σ.next := rfl

@[simp] theorem Store.next_alloc (σ : Store) (l : List String) :
    (σ.alloc l).1.next = σ.next + 1 := rfl

@[simp] theorem Store.read_alloc_self (σ : Store) (l : List String) :
    (σ.alloc l).1.read σ.next = l := by
  simp [Store.read, Store.alloc]

theorem Store.read_alloc_ne (σ : Store) (l : List String) {r : Nat}
    (h : r ≠ σ.next) : (σ.alloc l).1.read r = σ.read r := by
  simp [Store.read, Store.alloc, h]

/-! ### More list helpers -/

theorem concatLast_length (l : List String) (x : String) :
    (concatLast l x).length = l.length := by
  induction l with
  | nil => rfl
  | cons a l' ih =>
    cases l' with
    | nil => rfl
    | cons b l'' => simpa [concatLast] using ih

theorem concatLast_cons_of_ne (a : String) (rest : List String) (x : String)
    (h : rest ≠ []) : concatLast (a :: rest) x = a :: concatLast rest x := by
  cases rest with
  | nil => exact absurd rfl h
  | cons b l => rfl

theorem interleave_ne_nil {es L : List String} (h : es ≠ []) :
    interleave es L ≠ [] := by
  cases es with
  | nil => exact absurd rfl h
  | cons e es' => cases L <;> simp [interleave]

/-! ### Observables and bridges -/

/-- The observable fragment list of a builder (the contents of its
`queryTexts` array, or the singleton of the built string). -/
def fragments (σ : Store) (b : QueryStringBuilder) : List String :=
  match b.queryTexts with
  | .building r => σ.read r
  | .built s => [s]

theorem buildText_eq_core {σ : Store} {b : QueryStringBuilder} {r : Nat}
    (h : b.queryTexts = .building r) :
    buildText σ b = (buildCore b.tokenForIndex (σ.read r) b.values).2.1 := by
  simp [buildText, QueryStringBuilder.build, h]

theorem buildValues_eq_core {σ : Store} {b : QueryStringBuilder} {r : Nat}
    (h : b.queryTexts = .building r) :
    buildValues σ b = (buildCore b.tokenForIndex (σ.read r) b.values).2.2 := by
  simp [buildValues, QueryStringBuilder.build, h]

/-- Projection extraction from a computed `Option`. -/
theorem option_proj {α β : Type} {o : Option α} {r : α} (f : α → β)
    (h : o = some r) {v : β} (hv : o.map f = some v) : f r = v := by
  rw [h] at hv
  simpa using hv

theorem ctorLoop_tokenForIndex (tok : Int → String) (srcRef r : Nat) :
    ∀ (vs : List CtorValue) (σ : Store) (acc : List QueryValue)
      {σ' : Store} {b' : QueryStringBuilder},
      ctorLoop tok srcRef r vs σ acc = some (σ', b') →
      b'.tokenForIndex = tok ∧ b'.queryTexts = .building r := by
  intro vs
  induction vs with
  | nil =>
    intro σ acc σ' b' h
    simp only [ctorLoop, Option.some.injEq, Prod.mk.injEq] at h
    rw [← h.2]
    exact ⟨rfl, rfl⟩
  | cons v vs' ih =>
    intro σ acc σ' b' h
    cases v with
    | plain q =>
      simp only [ctorLoop] at h
      cases hs : jsShift σ srcRef with
      | none => rw [hs] at h; simp at h
      | some ts =>
        rw [hs] at h
        exact ih _ _ h
    | builder p =>
      simp only [ctorLoop] at h
      cases ha : appendInternal σ ⟨tok, QTexts.building r, some acc⟩ (.builder p) with
      | none => rw [ha] at h; simp at h
      | some sb =>
        obtain ⟨σ1, self1⟩ := sb
        rw [ha] at h
        replace h : (match jsShift σ1 srcRef with
            | none => none
            | some (t, σ2) =>
              ctorLoop tok srcRef r vs' (σ2.write r (concatLast (σ2.read r) t))
                (self1.values.getD [])) = some (σ', b') := h
        cases hs : jsShift σ1 srcRef with
        | none => rw [hs] at h; simp at h
        | some ts =>
          rw [hs] at h
          exact ih _ _ h

theorem ctorFn_tokenForIndex {σ : Store} {tok : Int → String} {srcRef : Nat}
    {values : List CtorValue} {σ' : Store} {b' : QueryStringBuilder}
    (h : ctorFn σ tok srcRef values = some (σ', b')) :
    b'.tokenForIndex = tok := by
  rw [ctorFn] at h
  by_cases he : values.isEmpty
  · rw [if_pos he] at h
    simp only [Option.some.injEq, Prod.mk.injEq] at h
    rw [← h.2]
  · rw [if_neg he] at h
    replace h : (match jsShift (σ.alloc []).1 srcRef with
        | none => none
        | some (t0, σ2) =>
          ctorLoop tok srcRef (σ.alloc []).2 values
            (σ2.write (σ.alloc []).2 [t0]) []) = some (σ', b') := h
    cases hs : jsShift (σ.alloc []).1 srcRef with
    | none => rw [hs] at h; simp at h
    | some ts =>
      obtain ⟨t0, σ2⟩ := ts
      rw [hs] at h
      exact (ctorLoop_tokenForIndex tok srcRef _ values _ _ h).1

theorem sql_tokenForIndex {σ : Store} {texts : List String}
    {values : List CtorValue} {σ' : Store} {b' : QueryStringBuilder}
    (h : sql σ texts values = some (σ', b')) :
    b'.tokenForIndex = sqlTok :=
  ctorFn_tokenForIndex h

/-- All interpolated values are boxed literals: nothing is kept. -/
theorem finalD_all_lit :
    ∀ (s d : List QueryValue), (∀ v ∈ s, isUnsafeLit v = true) → finalD d s = d := by
  intro s
  induction s with
  | nil => intro d _; rfl
  | cons v s' ih =>
    intro d hall
    have hv : isUnsafeLit v = true := hall v (List.mem_cons_self v s')
    have hd : stepD d v = d := by simp [stepD, hv]
    simp only [finalD, hd]
    exact ih d fun w hw => hall w (List.mem_cons_of_mem v hw)

theorem firstIdx_nan (d : List QueryValue) : firstIdx d .nan = none :=
  idxFrom_none_iff.mpr fun x _ => by cases x <;> rfl

theorem jsStrictEq_nan (x : QueryValue) : jsStrictEq .nan x = false := by
  cases x <;> rfl

theorem stepEmit_nan (tok : Int → String) (d : List QueryValue) :
    stepEmit tok d .nan = tok (-1) := by
  simp [stepEmit, isUnsafeLit, firstIdx_nan, jsStrictEq]

theorem stepD_nan (d : List QueryValue) : stepD d .nan = d := by
  simp [stepD, isUnsafeLit, firstIdx_nan, jsStrictEq]

/-! ### Constructor-loop lemmas -/

theorem jsShift_none {σ : Store} {r : Nat} (h : σ.read r = []) :
    jsShift σ r = none := by
  simp [jsShift, h]

theorem jsShift_some {σ : Store} {r : Nat} {t : String} {rest : List String}
    (h : σ.read r = t :: rest) : jsShift σ r = some (t, σ.write r rest) := by
  simp [jsShift, h]

theorem appendInternal_building_some (σ : Store) (tok : Int → String) (r : Nat)
    (ov : Option (List QueryValue)) (part : AppendPart) :
    ∃ X b1, appendInternal σ ⟨tok, .building r, ov⟩ part = some (σ.write r X, b1)
      ∧ b1.queryTexts = .building r ∧ b1.tokenForIndex = tok :=
  ⟨_, _, rfl, rfl, rfl⟩

/-- `appendInternal` on an unfinalized builder with a nonempty fragment
array, appending an unfinalized builder with a nonempty fragment array. -/
theorem appendInternal_bb {σ : Store} {tok : Int → String} {r rp : Nat}
    {mv : List QueryValue} {p : QueryStringBuilder}
    (hp : p.queryTexts = .building rp)
    {q0 : String} {qrest : List String} (hq : σ.read r = q0 :: qrest)
    {f0 : String} {frest : List String} (hF : σ.read rp = f0 :: frest) :
    appendInternal σ ⟨tok, .building r, some mv⟩ (.builder p)
      = some (σ.write r (concatLast (q0 :: qrest) f0 ++ frest),
          ⟨tok, .building r, some (mv ++ p.values.getD [])⟩) := by
  cases hv : p.values with
  | none => simp [appendInternal, partTexts, hp, hq, hF, hv]
  | some pv => simp [appendInternal, partTexts, hp, hq, hF, hv]

theorem ctorLoop_plain_eq (tok : Int → String) (srcRef r : Nat) (q : QueryValue)
    (vs : List CtorValue) (σ : Store) (acc : List QueryValue) :
    ctorLoop tok srcRef r (.plain q :: vs) σ acc
      = (jsShift σ srcRef).elim none (fun ts =>
          ctorLoop tok srcRef r vs (ts.2.write r (ts.2.read r ++ [ts.1])) (acc ++ [q])) := by
  cases h : jsShift σ srcRef with
  | none => simp [ctorLoop, h]
  | some ts =>
    obtain ⟨t, σ'⟩ := ts
    simp [ctorLoop, h]

theorem ctorLoop_builder_eq (tok : Int → String) (srcRef r : Nat)
    (p : QueryStringBuilder) (vs : List CtorValue) (σ : Store)
    (acc : List QueryValue) :
    ctorLoop tok srcRef r (.builder p :: vs) σ acc
      = (appendInternal σ ⟨tok, .building r, some acc⟩ (.builder p)).elim none (fun sp =>
          (jsShift sp.1 srcRef).elim none (fun ts =>
            ctorLoop tok srcRef r vs (ts.2.write r (concatLast (ts.2.read r) ts.1))
              (sp.2.values.getD []))) := by
  cases ha : appendInternal σ ⟨tok, .building r, some acc⟩ (.builder p) with
  | none => simp [ctorLoop, ha]
  | some sp =>
    obtain ⟨σ1, b1⟩ := sp
    cases hs : jsShift σ1 srcRef with
    | none => simp [ctorLoop, ha, hs]
    | some ts =>
      obtain ⟨t, σ2⟩ := ts
      simp [ctorLoop, ha, hs]

/-- The constructor loop `shift()`s once per value: with fewer remaining
source fragments than values it runs out and throws. -/
theorem ctorLoop_short (tok : Int → String) (srcRef r : Nat) (hne : r ≠ srcRef) :
    ∀ (vs : List CtorValue) (σ : Store) (acc : List QueryValue),
      (σ.read srcRef).length < vs.length →
      ctorLoop tok srcRef r vs σ acc = none := by
  intro vs
  induction vs with
  | nil => intro σ acc h; simp at h
  | cons v vs' ih =>
    intro σ acc h
    cases v with
    | plain q =>
      rw [ctorLoop_plain_eq]
      cases hread : σ.read srcRef with
      | nil => rw [jsShift_none hread]; rfl
      | cons t rest =>
        rw [jsShift_some hread]
        simp only [Option.elim]
        apply ih
        rw [Store.read_write_ne _ _ (Ne.symm hne), Store.read_write_self]
        rw [hread] at h
        simp only [List.length_cons] at h
        omega
    | builder p =>
      rw [ctorLoop_builder_eq]
      obtain ⟨X, b1, hap, _, _⟩ :=
        appendInternal_building_some σ tok r (some acc) (.builder p)
      rw [hap]
      simp only [Option.elim]
      cases hread : σ.read srcRef with
      | nil =>
        rw [jsShift_none (by rw [Store.read_write_ne _ _ (Ne.symm hne)]; exact hread)]
      | cons t rest =>
        rw [jsShift_some (by rw [Store.read_write_ne _ _ (Ne.symm hne)]; exact hread)]
        simp only [Option.elim]
        apply ih
        rw [Store.read_write_ne _ _ (Ne.symm hne), Store.read_write_self]
        rw [hread] at h
        simp only [List.length_cons] at h
        omega

/-- The constructor loop succeeds when the source has exactly one fragment
per remaining value (after the initial shift), every nested builder part is
unfinalized, satisfies the count invariant, and lives in a cell distinct
from the two being mutated; the resulting builder then satisfies the count
invariant, and only the cells `r` and `srcRef` are written. -/
theorem ctorLoop_ok (tok : Int → String) (srcRef r : Nat) (hne : r ≠ srcRef) :
    ∀ (vs : List CtorValue) (σ : Store) (acc : List QueryValue),
      (σ.read srcRef).length = vs.length →
      (σ.read r).length = acc.length + 1 →
      (∀ p, CtorValue.builder p ∈ vs →
        ∃ rp, p.queryTexts = .building rp ∧ rp ≠ r ∧ rp ≠ srcRef ∧
          (σ.read rp).length = (p.values.getD []).length + 1) →
      ∃ σ' acc',
        ctorLoop tok srcRef r vs σ acc = some (σ', ⟨tok, .building r, some acc'⟩)
        ∧ (σ'.read r).length = acc'.length + 1
        ∧ σ'.next = σ.next
        ∧ ∀ j, j ≠ r → j ≠ srcRef → σ'.read j = σ.read j := by
  intro vs
  induction vs with
  | nil =>
    intro σ acc hsrc hcell _
    have hsrc0 : σ.read srcRef = [] := List.length_eq_zero.mp hsrc
    refine ⟨σ.write r (σ.read r ++ σ.read srcRef), acc, by simp [ctorLoop], ?_, by simp, ?_⟩
    · rw [Store.read_write_self, hsrc0]
      simpa using hcell
    · intro j hjr _
      exact Store.read_write_ne _ _ hjr
  | cons v vs' ih =>
    intro σ acc hsrc hcell hparts
    cases v with
    | plain q =>
      cases hread : σ.read srcRef with
      | nil => rw [hread] at hsrc; simp at hsrc
      | cons t rest =>
        rw [ctorLoop_plain_eq, jsShift_some hread]
        simp only [Option.elim]
        have hrlen : rest.length = vs'.length := by
          rw [hread] at hsrc
          simpa using hsrc
        have hr1 : (σ.write srcRef rest).read r = σ.read r :=
          Store.read_write_ne _ _ hne
        obtain ⟨σ', acc', heq, hlen', hnext, hframe⟩ :=
          ih ((σ.write srcRef rest).write r ((σ.write srcRef rest).read r ++ [t]))
            (acc ++ [q])
            (by rw [Store.read_write_ne _ _ (Ne.symm hne), Store.read_write_self]
                exact hrlen)
            (by rw [Store.read_write_self, hr1]
                simp only [List.length_append, List.length_singleton, hcell])
            (by intro p hp
                obtain ⟨rp, h1, h2, h3, h4⟩ :=
                  hparts p (List.mem_cons_of_mem _ hp)
                refine ⟨rp, h1, h2, h3, ?_⟩
                rw [Store.read_write_ne _ _ h2, Store.read_write_ne _ _ h3]
                exact h4)
        refine ⟨σ', acc', heq, hlen', by simpa using hnext, ?_⟩
        intro j hjr hjs
        rw [hframe j hjr hjs, Store.read_write_ne _ _ hjr,
          Store.read_write_ne _ _ hjs]
    | builder p =>
      obtain ⟨rp, hp, hrpr, hrps, hplen⟩ :=
        hparts p (List.mem_cons_self _ _)
      cases hq : σ.read r with
      | nil => rw [hq] at hcell; simp at hcell
      | cons q0 qrest =>
        cases hF : σ.read rp with
        | nil => rw [hF] at hplen; simp at hplen
        | cons f0 frest =>
          cases hread : σ.read srcRef with
          | nil => rw [hread] at hsrc; simp at hsrc
          | cons t rest =>
            rw [ctorLoop_builder_eq, appendInternal_bb hp hq hF]
            simp only [Option.elim]
            have hsrc1 : (σ.write r (concatLast (q0 :: qrest) f0 ++ frest)).read srcRef
                = t :: rest := by
              rw [Store.read_write_ne _ _ (Ne.symm hne)]
              exact hread
            rw [jsShift_some hsrc1]
            simp only [Option.elim, Option.getD_some]
            have hrlen : rest.length = vs'.length := by
              rw [hread] at hsrc
              simpa using hsrc
            have hflen : frest.length = (p.values.getD []).length := by
              rw [hF] at hplen
              simpa using hplen
            have hqlen : qrest.length + 1 = acc.length + 1 := by
              rw [hq] at hcell
              simpa using hcell
            have hreadr : ((σ.write r (concatLast (q0 :: qrest) f0 ++ frest)).write
                srcRef rest).read r = concatLast (q0 :: qrest) f0 ++ frest := by
              rw [Store.read_write_ne _ _ hne, Store.read_write_self]
            obtain ⟨σ', acc', heq, hlen', hnext, hframe⟩ :=
              ih (((σ.write r (concatLast (q0 :: qrest) f0 ++ frest)).write srcRef
                    rest).write r
                  (concatLast (((σ.write r (concatLast (q0 :: qrest) f0
                    ++ frest)).write srcRef rest).read r) t))
                (acc ++ p.values.getD [])
                (by rw [Store.read_write_ne _ _ (Ne.symm hne), Store.read_write_self]
                    exact hrlen)
                (by rw [Store.read_write_self, hreadr, concatLast_length]
                    simp only [List.length_append, concatLast_length,
                      List.length_cons]
                    omega)
                (by intro p' hp'
                    obtain ⟨rp', h1, h2, h3, h4⟩ :=
                      hparts p' (List.mem_cons_of_mem _ hp')
                    refine ⟨rp', h1, h2, h3, ?_⟩
                    rw [Store.read_write_ne _ _ h2, Store.read_write_ne _ _ h3,
                      Store.read_write_ne _ _ h2]
                    exact h4)
            refine ⟨σ', acc', heq, hlen', by simpa using hnext, ?_⟩
            intro j hjr hjs
            rw [hframe j hjr hjs, Store.read_write_ne _ _ hjr,
              Store.read_write_ne _ _ hjs, Store.read_write_ne _ _ hjr]

/-- The constructor succeeds on a source array with exactly one more
fragment than values (unfinalized invariant-satisfying nested parts in
distinct valid cells); the new builder lives in the fresh cell `σ.next`
and satisfies the count invariant. -/
theorem ctorFn_ok (σ : Store) (tok : Int → String) (srcRef : Nat)
    (values : List CtorValue) (hvne : values ≠ [])
    (hsrc : srcRef < σ.next)
    (hlen : (σ.read srcRef).length = values.length + 1)
    (hparts : ∀ p, CtorValue.builder p ∈ values →
      ∃ rp, p.queryTexts = .building rp ∧ rp < σ.next ∧ rp ≠ srcRef ∧
        (σ.read rp).length = (p.values.getD []).length + 1) :
    ∃ σ' acc', ctorFn σ tok srcRef values
        = some (σ', ⟨tok, .building σ.next, some acc'⟩)
      ∧ (σ'.read σ.next).length = acc'.length + 1
      ∧ σ'.next = σ.next + 1 := by
  have hsne : srcRef ≠ σ.next := Nat.ne_of_lt hsrc
  have hreadA : (σ.alloc []).1.read srcRef = σ.read srcRef :=
    Store.read_alloc_ne σ [] hsne
  cases hread : σ.read srcRef with
  | nil => rw [hread] at hlen; simp at hlen
  | cons t0 rest0 =>
    have hshift : jsShift (σ.alloc []).1 srcRef
        = some (t0, (σ.alloc []).1.write srcRef rest0) :=
      jsShift_some (by rw [hreadA, hread])
    have hrlen : rest0.length = values.length := by
      rw [hread] at hlen
      simpa using hlen
    obtain ⟨σ', acc', heq, hlen', hnext', _⟩ :=
      ctorLoop_ok tok srcRef σ.next (Ne.symm hsne) values
        (((σ.alloc []).1.write srcRef rest0).write σ.next [t0]) []
        (by rw [Store.read_write_ne _ _ hsne, Store.read_write_self]
            exact hrlen)
        (by rw [Store.read_write_self]; rfl)
        (by intro q hq
            obtain ⟨rp, h1, h2, h3, h4⟩ := hparts q hq
            have hrpne : rp ≠ σ.next := Nat.ne_of_lt h2
            refine ⟨rp, h1, hrpne, h3, ?_⟩
            rw [Store.read_write_ne _ _ hrpne, Store.read_write_ne _ _ h3,
              Store.read_alloc_ne σ [] hrpne]
            exact h4)
    refine ⟨σ', acc', ?_, hlen', by simp [hnext']⟩
    rw [ctorFn, if_neg (by simp [hvne])]
    simp only [Store.alloc_snd]
    rw [hshift]
    exact heq

/-- With fewer source fragments than `values.length + 1` (and nonempty
values), the constructor's `defined(queryTexts.shift())` fails. -/
theorem ctorFn_short (σ : Store) (tok : Int → String) (srcRef : Nat)
    (values : List CtorValue) (hvne : values ≠ [])
    (hshort : (σ.read srcRef).length < values.length + 1) :
    ctorFn σ tok srcRef values = none := by
  rw [ctorFn, if_neg (by simp [hvne])]
  simp only [Store.alloc_snd]
  by_cases hsne : srcRef = σ.next
  · subst hsne
    rw [jsShift_none (by rw [Store.read_alloc_self])]
  · have hreadA : (σ.alloc []).1.read srcRef = σ.read srcRef :=
      Store.read_alloc_ne σ [] hsne
    cases hread : σ.read srcRef with
    | nil => rw [jsShift_none (by rw [hreadA, hread])]
    | cons t0 rest0 =>
      rw [jsShift_some (by rw [hreadA, hread])]
      show ctorLoop tok srcRef σ.next values
        (((σ.alloc []).1.write srcRef rest0).write σ.next [t0]) [] = none
      apply ctorLoop_short tok srcRef σ.next (Ne.symm hsne)
      rw [Store.read_write_ne _ _ hsne, Store.read_write_self]
      rw [hread] at hshort
      simp only [List.length_cons] at hshort
      omega

/-- Symbolic evaluation of the template constructor applied to
`(prefix, nested builder, suffix)`: the resulting builder holds the
nested builder's values and the fragment array
`concatLast ((p ++ f0) :: frest) s` — the nested fragments with `p`
concatenated onto the first and `s` onto the last. -/
theorem templateWith_single_builder (tok : Int → String) (σ : Store)
    (n : QueryStringBuilder) (rn : Nat) (p s f0 : String) (frest : List String)
    (hb : n.queryTexts = .building rn) (hr : rn < σ.next)
    (hF : σ.read rn = f0 :: frest) :
    ∃ σ1, templateWith tok σ [p, s] [.builder n]
        = some (σ1, ⟨tok, .building (σ.next + 1), some (n.values.getD [])⟩)
      ∧ σ1.read (σ.next + 1) = concatLast ((p ++ f0) :: frest) s := by
  have h1 : σ.next ≠ σ.next + 1 := by omega
  have h1s : σ.next + 1 ≠ σ.next := by omega
  have h2 : rn ≠ σ.next := Nat.ne_of_lt hr
  have h3 : rn ≠ σ.next + 1 := by omega
  have hread1 : ((σ.alloc [p, s]).1.alloc []).1.read σ.next = p :: [s] := by
    rw [Store.read_alloc_ne _ [] h1, Store.read_alloc_self]
  have hread2 : ((((σ.alloc [p, s]).1.alloc []).1.write σ.next [s]).write
      (σ.next + 1) [p]).read (σ.next + 1) = p :: [] :=
    Store.read_write_self _ _ _
  have hread3 : ((((σ.alloc [p, s]).1.alloc []).1.write σ.next [s]).write
      (σ.next + 1) [p]).read rn = f0 :: frest := by
    rw [Store.read_write_ne _ _ h3, Store.read_write_ne _ _ h2,
      Store.read_alloc_ne _ [] h3, Store.read_alloc_ne _ [p, s] h2, hF]
  have hread4 : (((((σ.alloc [p, s]).1.alloc []).1.write σ.next [s]).write
      (σ.next + 1) [p]).write (σ.next + 1)
        (concatLast (p :: []) f0 ++ frest)).read σ.next = s :: [] := by
    rw [Store.read_write_ne _ _ h1, Store.read_write_ne _ _ h1,
      Store.read_write_self]
  simp only [templateWith, ctorFn, Store.alloc_snd, Store.next_alloc]
  rw [if_neg (by simp)]
  rw [jsShift_some hread1]
  simp only []
  rw [ctorLoop_builder_eq, appendInternal_bb hb hread2 hread3]
  simp only [Option.elim]
  rw [jsShift_some hread4]
  simp only [Option.elim, ctorLoop]
  refine ⟨_, rfl, ?_⟩
  rw [Store.read_write_self, Store.read_write_self,
    Store.read_write_ne _ _ h1s, Store.read_write_self,
    Store.read_write_ne _ _ h1, Store.read_write_self]
  simp [concatLast]

/-! ### Concrete scenarios (observable effects of `clone()`) -/

/-- Build the original `sql\`select *\`` builder, clone it, mutate only the
clone with `appendRawString " x"`, then build the untouched original. -/
def cloneShareScenario : String :=
  match sql emptyStore ["select *"] [] with
  | none => "ctor failed"
  | some r1 =>
    match r1.2.clone r1.1 with
    | none => "clone failed"
    | some r2 =>
      match r2.2.appendRawString r2.1 " x" with
      | none => "append failed"
      | some r3 => buildText r3.1 r1.2

/-- Build `sql\`a ${5}\``, clone it, and report the original's fragment
array before and after the `clone()` call. -/
def cloneDrainScenario : Option (List String × List String) :=
  match sql emptyStore ["a ", ""] [.plain (.int 5)] with
  | none => none
  | some r1 =>
    (r1.2.clone r1.1).map fun r2 => (fragments r1.1 r1.2, fragments r2.1 r1.2)

/-! ### Claim theorems -/

/-- C1: the claim states that `clone()` returns an independent builder
sharing no mutable state, leaving the original's observable state
unchanged, and that mutating the clone never changes the original's
`build()` output.  The code violates this (contradicting its own comment
"The QueryStringBuilder constructor copies the queryTexts and values
arrays"): for a value-free builder the constructor stores the passed
`queryTexts` array without copying, so the clone shares it — after
`clone.appendRawString(" x")` the original `sql\`select *\`` builds to
`"select * x"` instead of `"select *"`; and for a builder with values the
constructor `shift()`s fragments out of the original's array, draining the
original `sql\`a ${5}\``'s fragments from `["a ", ""]` to `[]` during
`clone()` itself. -/
theorem clone_mutation_bug :
    cloneShareScenario = "select * x" ∧
    cloneDrainScenario = some ((["a ", ""], []) : List String × List String) := by
  exact ⟨rfl, rfl⟩

/-- C3: `build()` is idempotent — calling it again on the frozen builder
returned by a first `build()` yields the identical
`(store, builder, text, values)` quadruple: the same `(text, values)` pair
is returned, and neither the builder nor the store is mutated further (the
cached result is returned without recomputation). -/
theorem build_idempotent (σ : Store) (b : QueryStringBuilder) :
    QueryStringBuilder.build (QueryStringBuilder.build σ b).1
        (QueryStringBuilder.build σ b).2.1
      = QueryStringBuilder.build σ b := by
  cases hq : b.queryTexts with
  | built s => simp [QueryStringBuilder.build, hq]
  | building r => simp [QueryStringBuilder.build, hq]

/-- C2: de-duplication in `build()`.  For a builder whose fragments exceed
its (scalar) values by one, the output values are the kept first
occurrences `finalD [] vals`: pairwise distinct under `===`, a sublist of
the input (ordering preserved), with exactly one entry `===`-equal to each
interpolated value; every occurrence's placeholder token is
`tok` applied to that value's index in the final de-duplicated output
array — so repeated values get the same token — and the query text
interleaves exactly these tokens with the fragments.  In particular
`sql\`${"foo"} ${5} ${"foo"} ${5}\`` builds to text `"$1 $2 $1 $2"` with
values `["foo", 5]`. -/
theorem build_dedup (tok : Int → String) (t0 : String) (rest : List String)
    (vals : List QueryValue) (hne : vals ≠ []) (hlen : vals.length ≤ rest.length)
    (hsc : ∀ v ∈ vals, isScalar v = true) :
    (buildCore tok (t0 :: rest) (some vals)).2.2 = some (finalD [] vals) ∧
    NoJsDup (finalD [] vals) ∧
    (finalD [] vals).Sublist vals ∧
    (∀ v ∈ vals, jsCount (finalD [] vals) v = 1) ∧
    emits tok [] vals = vals.map (fun v => tok (jsIndexOf (finalD [] vals) v)) ∧
    (buildCore tok (t0 :: rest) (some vals)).2.1
      = joinAll (t0 :: interleave
          (vals.map (fun v => tok (jsIndexOf (finalD [] vals) v))) rest) ∧
    (sql emptyStore ["", " ", " ", " ", ""]
        [.plain (.str "foo"), .plain (.int 5),
          .plain (.str "foo"), .plain (.int 5)]).elim False
      (fun r => buildText r.1 r.2 = "$1 $2 $1 $2"
        ∧ buildValues r.1 r.2 = some [.str "foo", .int 5]) := by
  have hspec := buildCore_eq_spec tok t0 rest vals hne hlen
  have hnodup : NoJsDup (finalD [] vals) := NoJsDup_finalD List.Pairwise.nil vals
  refine ⟨by rw [hspec], hnodup, ?_, ?_, emits_map tok vals [] hsc, ?_, ?_⟩
  · obtain ⟨e, he, hsub⟩ := finalD_prefix vals []
    rw [he]
    simpa using hsub
  · intro v hv
    have hself : jsStrictEq v v = true := jsStrictEq_self_of_scalar (hsc v hv)
    exact jsCount_eq_one hnodup
      (mem_finalD_of_mem vals [] (Or.inl ⟨hv, hself⟩))
  · rw [hspec, ← emits_map tok vals [] hsc]
  · cases hsql : sql emptyStore ["", " ", " ", " ", ""]
        [.plain (.str "foo"), .plain (.int 5),
          .plain (.str "foo"), .plain (.int 5)] with
    | none =>
      have hs : (sql emptyStore ["", " ", " ", " ", ""]
          [.plain (.str "foo"), .plain (.int 5),
            .plain (.str "foo"), .plain (.int 5)]).isSome = true := by decide
      rw [hsql] at hs
      simp at hs
    | some r =>
      have htok := sql_tokenForIndex hsql
      have hq : r.2.queryTexts = .building 1 :=
        option_proj (fun x => x.2.queryTexts) hsql (by decide)
      have hvals : r.2.values = some [.str "foo", .int 5, .str "foo", .int 5] :=
        option_proj (fun x => x.2.values) hsql (by decide)
      have hread : r.1.read 1 = ["", " ", " ", " ", ""] :=
        option_proj (fun x => x.1.read 1) hsql (by decide)
      simp only [Option.elim]
      rw [buildText_eq_core hq, buildValues_eq_core hq, htok, hvals, hread]
      rw [buildCore_eq_spec sqlTok "" [" ", " ", " ", ""]
        [.str "foo", .int 5, .str "foo", .int 5] (by decide) (by decide)]
      exact ⟨by decide, by decide⟩

/-- C4: unsafe literal bypass.  For any builder with fragments one more
than its values and an `UnsafeQueryLiteral u` among the values (at
position `|V1|`), `build()` returns a values list containing no boxed
literal at all (in particular not `u`), and the query text is exactly the
text built from the prefix, then the raw wrapped text `u` verbatim at its
interpolation point, then the text built from the suffix. -/
theorem unsafe_literal_bypass (tok : Int → String) (u t0 t : String)
    (todo1 todo2 : List String) (V1 V2 : List QueryValue)
    (h1 : todo1.length = V1.length) (h2 : V2.length ≤ todo2.length) :
    (∀ w ∈ (buildCore tok (t0 :: (todo1 ++ t :: todo2))
        (some (V1 ++ .unsafeLit u :: V2))).2.2.getD [], isUnsafeLit w = false) ∧
    (buildCore tok (t0 :: (todo1 ++ t :: todo2))
        (some (V1 ++ .unsafeLit u :: V2))).2.1
      = joinAll (t0 :: interleave (emits tok [] V1) todo1) ++ u
          ++ joinAll (t :: interleave (emits tok (finalD [] V1) V2) todo2) := by
  have hne : V1 ++ QueryValue.unsafeLit u :: V2 ≠ [] := by simp
  have hlen : (V1 ++ QueryValue.unsafeLit u :: V2).length
      ≤ (todo1 ++ t :: todo2).length := by
    simp only [List.length_append, List.length_cons]
    omega
  have hspec := buildCore_eq_spec tok t0 (todo1 ++ t :: todo2)
    (V1 ++ .unsafeLit u :: V2) hne hlen
  have hemit : stepEmit tok (finalD [] V1) (.unsafeLit u) = u := by
    simp [stepEmit, isUnsafeLit, unsafeText]
  have hstep : stepD (finalD [] V1) (.unsafeLit u) = finalD [] V1 := by
    simp [stepD, isUnsafeLit]
  have hE : emits tok [] (V1 ++ .unsafeLit u :: V2)
      = emits tok [] V1 ++ u :: emits tok (finalD [] V1) V2 := by
    rw [emits_append]
    simp only [emits, hemit, hstep]
  have hlen1 : (emits tok [] V1).length = todo1.length := by
    rw [emits_length]; omega
  constructor
  · rw [hspec]
    intro w hw
    simp only [Option.getD_some] at hw
    exact no_unsafeLit_finalD (V1 ++ .unsafeLit u :: V2) [] (by simp) w hw
  · rw [hspec, hE, interleave_append hlen1]
    show joinAll (t0 :: (interleave (emits tok [] V1) todo1
        ++ u :: t :: interleave (emits tok (finalD [] V1) V2) todo2)) = _
    simp [joinAll, joinAll_append, String.append_assoc]

/-- C10: de-duplication uses JavaScript strict equality through a
first-index `indexOf` lookup, so a value not `===` to itself (`NaN`) is
never found (`indexOf` returns `-1`): the `build()` loop then removes the
`NaN` occurrence from the output values entirely (the output equals the
one computed without it, and contains no `NaN`) and splices in the token
`placeholderFn(-1)` at its slot — under the `sql` constructor's 1-based
scheme that token is `"$0"`, as `sql\`${NaN}\`` shows concretely. -/
theorem nan_strict_equality :
    (∀ l : List QueryValue, jsIndexOf l .nan = -1) ∧
    (∀ (tok : Int → String) (t0 t : String) (todo1 todo2 : List String)
        (V1 V2 : List QueryValue),
      todo1.length = V1.length → V2.length ≤ todo2.length →
      (buildCore tok (t0 :: (todo1 ++ t :: todo2)) (some (V1 ++ .nan :: V2))).2.2
          = some (finalD [] (V1 ++ V2)) ∧
      QueryValue.nan ∉ finalD [] (V1 ++ V2) ∧
      (buildCore tok (t0 :: (todo1 ++ t :: todo2)) (some (V1 ++ .nan :: V2))).2.1
        = joinAll (t0 :: interleave (emits tok [] V1) todo1) ++ tok (-1)
            ++ joinAll (t :: interleave (emits tok (finalD [] V1) V2) todo2)) ∧
    (sql emptyStore ["", ""] [.plain .nan]).elim False
      (fun r => buildText r.1 r.2 = "$0" ∧ buildValues r.1 r.2 = some []) := by
  refine ⟨fun l => jsIndexOf_neg jsStrictEq_nan l, ?_, ?_⟩
  · intro tok t0 t todo1 todo2 V1 V2 h1 h2
    have hne : V1 ++ QueryValue.nan :: V2 ≠ [] := by simp
    have hlen : (V1 ++ QueryValue.nan :: V2).length
        ≤ (todo1 ++ t :: todo2).length := by
      simp only [List.length_append, List.length_cons]
      omega
    have hspec := buildCore_eq_spec tok t0 (todo1 ++ t :: todo2)
      (V1 ++ .nan :: V2) hne hlen
    have hfinal : finalD [] (V1 ++ QueryValue.nan :: V2) = finalD [] (V1 ++ V2) := by
      rw [finalD_append, finalD_append]
      show finalD (stepD (finalD [] V1) .nan) V2 = _
      rw [stepD_nan]
    have hE : emits tok [] (V1 ++ .nan :: V2)
        = emits tok [] V1 ++ tok (-1) :: emits tok (finalD [] V1) V2 := by
      rw [emits_append]
      simp only [emits, stepEmit_nan, stepD_nan]
    have hlen1 : (emits tok [] V1).length = todo1.length := by
      rw [emits_length]; omega
    refine ⟨by rw [hspec, hfinal], nan_not_mem_finalD (V1 ++ V2) [] (by simp), ?_⟩
    rw [hspec, hE, interleave_append hlen1]
    show joinAll (t0 :: (interleave (emits tok [] V1) todo1
        ++ tok (-1) :: t :: interleave (emits tok (finalD [] V1) V2) todo2)) = _
    simp [joinAll, joinAll_append, String.append_assoc]
  · cases hsql : sql emptyStore ["", ""] [.plain .nan] with
    | none =>
      have hs : (sql emptyStore ["", ""] [.plain .nan]).isSome = true := by decide
      rw [hsql] at hs
      simp at hs
    | some r =>
      have htok := sql_tokenForIndex hsql
      have hq : r.2.queryTexts = .building 1 :=
        option_proj (fun x => x.2.queryTexts) hsql (by decide)
      have hvals : r.2.values = some [.nan] :=
        option_proj (fun x => x.2.values) hsql (by decide)
      have hread : r.1.read 1 = ["", ""] :=
        option_proj (fun x => x.1.read 1) hsql (by decide)
      simp only [Option.elim]
      rw [buildText_eq_core hq, buildValues_eq_core hq, htok, hvals, hread]
      rw [buildCore_eq_spec sqlTok "" [""] [.nan] (by decide) (by decide)]
      exact ⟨by decide, by decide⟩

/-- C6 counterexample: the claim states that whenever the final
de-duplicated values list is empty — including the all-`UnsafeQueryLiteral`
case — `build()` reports values as absent, never as an empty collection.
But `sql\`a${UnsafeQueryLiteral("x")}\`` builds to `("ax", [])`: the
nonempty pre-build values array shrinks to the empty array, which is
returned as an (empty) collection, not as `undefined`. -/
theorem values_empty_list_counterexample :
    (sql emptyStore ["a", ""] [.plain (.unsafeLit "x")]).elim False
      (fun r => buildText r.1 r.2 = "ax"
        ∧ buildValues r.1 r.2 = some ([] : List QueryValue)) := by
  cases hsql : sql emptyStore ["a", ""] [.plain (.unsafeLit "x")] with
  | none =>
    have hs : (sql emptyStore ["a", ""] [.plain (.unsafeLit "x")]).isSome = true := by
      decide
    rw [hsql] at hs
    simp at hs
  | some r =>
    have htok := sql_tokenForIndex hsql
    have hq : r.2.queryTexts = .building 1 :=
      option_proj (fun x => x.2.queryTexts) hsql (by decide)
    have hvals : r.2.values = some [.unsafeLit "x"] :=
      option_proj (fun x => x.2.values) hsql (by decide)
    have hread : r.1.read 1 = ["a", ""] :=
      option_proj (fun x => x.1.read 1) hsql (by decide)
    simp only [Option.elim]
    rw [buildText_eq_core hq, buildValues_eq_core hq, htok, hvals, hread]
    rw [buildCore_eq_spec sqlTok "a" [""] [.unsafeLit "x"] (by decide) (by decide)]
    exact ⟨by decide, by decide⟩

/-- C6 (amended): `build()` reports the values component as absent
(`undefined`) exactly when the builder's stored values are absent or empty
*before* finalization; a builder whose nonempty values are all
`UnsafeQueryLiteral`s instead returns an *empty list* (the shrunken
array), not an absent value. -/
theorem values_absent_reporting :
    (∀ (σ : Store) (b : QueryStringBuilder) (r : Nat),
      b.queryTexts = .building r →
      (b.values = none ∨ b.values = some []) → buildValues σ b = none) ∧
    (∀ (σ : Store) (b : QueryStringBuilder) (r : Nat) (vals : List QueryValue),
      b.queryTexts = .building r → b.values = some vals → vals ≠ [] →
      (∀ v ∈ vals, isUnsafeLit v = true) → FragValInv σ b →
      buildValues σ b = some []) := by
  constructor
  · intro σ b r hq hv
    rw [buildValues_eq_core hq]
    rcases hv with hv | hv <;> rw [hv] <;> simp [buildCore]
  · intro σ b r vals hq hv hne hall hinv
    rw [buildValues_eq_core hq, hv]
    rw [FragValInv, fragCount, hq, valCount, hv] at hinv
    simp only [Option.getD_some] at hinv
    cases hread : σ.read r with
    | nil => rw [hread] at hinv; simp at hinv
    | cons t0 rest =>
      rw [hread] at hinv
      simp only [List.length_cons] at hinv
      have hlen : vals.length ≤ rest.length := by omega
      rw [buildCore_eq_spec b.tokenForIndex t0 rest vals hne hlen,
        finalD_all_lit vals [] hall]

/-- `appendInternal` hypothesis on the appended part: a raw string, or an
unfinalized builder satisfying the count invariant. -/
def PartOk (σ : Store) : AppendPart → Prop
  | .raw _ => True
  | .builder p => ∃ rp, p.queryTexts = .building rp ∧ FragValInv σ p

theorem fragCount_building {σ : Store} {b : QueryStringBuilder} {r : Nat}
    (h : b.queryTexts = .building r) : fragCount σ b = (σ.read r).length := by
  simp [fragCount, h]

/-- Build a builder with the raw constructor's no-values path from a
two-fragment array: its fragment count is 2 while it has no values. -/
def rawCtorScenario : Option (Nat × Nat) :=
  (ctorFn (emptyStore.alloc ["a", "b"]).1 sqlTok 0 []).map
    (fun rr => (fragCount rr.1 rr.2, valCount rr.2 + 1))

/-- Finalize `sql\`hi\`` and then call `clone()` on the frozen builder. -/
def cloneAfterBuildScenario : Bool :=
  match sql emptyStore ["hi"] [] with
  | none => true
  | some r1 =>
    (QueryStringBuilder.clone (QueryStringBuilder.build r1.1 r1.2).1
      (QueryStringBuilder.build r1.1 r1.2).2.1).isSome

/-- C7 counterexample: the claim states that `clone()` on an
already-finalized builder still succeeds.  It does not: `clone()` asserts
`typeof queryTexts !== "string"`, which fails after `build()`, so cloning
the built `sql\`hi\`` returns no builder at all (a thrown assertion). -/
theorem clone_after_build_counterexample : cloneAfterBuildScenario = false := rfl

/-- C7 (amended): `clone()` on a finalized builder always fails (the
`assert` throws); it is on an *unfinalized* builder — one satisfying the
fragment/value count invariant, with a valid cell — that `clone()`
succeeds, so it must be called before `build()`, as the source comments
require. -/
theorem clone_finalized_fails :
    (∀ (σ : Store) (b : QueryStringBuilder) (s : String),
      b.queryTexts = .built s → QueryStringBuilder.clone σ b = none) ∧
    (∀ (σ : Store) (b : QueryStringBuilder) (r : Nat),
      b.queryTexts = .building r → r < σ.next → FragValInv σ b →
      (QueryStringBuilder.clone σ b).isSome = true) := by
  constructor
  · intro σ b s hq
    simp [QueryStringBuilder.clone, hq]
  · intro σ b r hq hr hinv
    rw [QueryStringBuilder.clone, hq]
    show (ctorFn σ b.tokenForIndex r
      ((b.values.getD []).map CtorValue.plain)).isSome = true
    cases hbv : b.values.getD [] with
    | nil => simp [ctorFn]
    | cons v rest =>
      have hvc : valCount b = (v :: rest).length := by
        rw [valCount, hbv]
      have hlen : (σ.read r).length
          = ((v :: rest).map CtorValue.plain).length + 1 := by
        rw [List.length_map, ← hvc]
        rw [FragValInv, fragCount_building hq] at hinv
        exact hinv
      obtain ⟨σ', acc', heq, _, _⟩ :=
        ctorFn_ok σ b.tokenForIndex r ((v :: rest).map CtorValue.plain)
          (by simp) hr hlen
          (by intro q hqmem
              simp only [List.mem_map] at hqmem
              obtain ⟨a, _, ha⟩ := hqmem
              cases ha)
      rw [heq]
      rfl

/-- C8: every listed contract violation fails fast with a synchronous
error and no partial result: `append`/`appendRawString` on a finalized
builder fail; the constructor with nonempty values and fewer fragments
than `values.length + 1` fails on `defined(queryTexts.shift())`; and
`joinSQL` (hence `commaJoinSQL` and `commaJoinStringsToSQL`) on an empty
item list fails its assertion. -/
theorem contract_violations_throw :
    (∀ (σ : Store) (b : QueryStringBuilder) (s : String)
        (part : QueryStringBuilder), b.queryTexts = .built s →
      QueryStringBuilder.append σ b part = none) ∧
    (∀ (σ : Store) (b : QueryStringBuilder) (s raw : String),
      b.queryTexts = .built s →
      QueryStringBuilder.appendRawString σ b raw = none) ∧
    (∀ (σ : Store) (tok : Int → String) (srcRef : Nat) (values : List CtorValue),
      values ≠ [] → (σ.read srcRef).length < values.length + 1 →
      ctorFn σ tok srcRef values = none) ∧
    (∀ (σ : Store) (sep : String), joinSQL σ [] sep = none) ∧
    (∀ σ : Store, commaJoinSQL σ [] = none) ∧
    (∀ σ : Store, commaJoinStringsToSQL σ [] = none) := by
  refine ⟨?_, ?_, ctorFn_short, fun _ _ => rfl, fun _ => rfl, fun _ => rfl⟩
  · intro σ b s part hq
    simp [QueryStringBuilder.append, appendInternal, hq]
  · intro σ b s raw hq
    simp [QueryStringBuilder.appendRawString, appendInternal, hq]

/-- C9 counterexample: the claim states every unfinalized builder
reachable through any construction path — the raw constructor included —
has one more fragment than values.  But the raw constructor's
empty-values path stores the caller's fragments as-is:
`new QueryStringBuilder(tok, ["a","b"])` is unfinalized with 2 fragments
and 0 values (2 ≠ 0 + 1). -/
theorem fragment_invariant_counterexample : rawCtorScenario = some (2, 1) := rfl

/-- C9 (amended): the fragment-count-equals-value-count-plus-one invariant
holds for builders made by the `sql`/template constructor from a proper
template shape (`texts.length = values.length + 1`) whose nested builder
arguments are unfinalized, in valid cells, and satisfy the invariant; it
is preserved by `append`/`appendRawString` when the appended part is a raw
string or an unfinalized invariant-satisfying builder; and a clone of an
unfinalized invariant-satisfying builder satisfies it.  (The raw
constructor's empty-values path, appending a finalized builder, and the
draining of a clone's original can all violate it.) -/
theorem fragment_value_invariant :
    (∀ (tok : Int → String) (σ : Store) (texts : List String)
        (values : List CtorValue),
      texts.length = values.length + 1 →
      (∀ p, CtorValue.builder p ∈ values →
        ∃ rp, p.queryTexts = .building rp ∧ rp < σ.next ∧
          (σ.read rp).length = (p.values.getD []).length + 1) →
      ∃ σ' b', templateWith tok σ texts values = some (σ', b')
        ∧ FragValInv σ' b') ∧
    (∀ (σ : Store) (b : QueryStringBuilder) (r : Nat) (part : AppendPart),
      b.queryTexts = .building r → FragValInv σ b → PartOk σ part →
      ∀ σ' b', appendInternal σ b part = some (σ', b') → FragValInv σ' b') ∧
    (∀ (σ : Store) (b : QueryStringBuilder) (r : Nat),
      b.queryTexts = .building r → r < σ.next → FragValInv σ b →
      ∀ σ' c, QueryStringBuilder.clone σ b = some (σ', c) →
        FragValInv σ' c) := by
  refine ⟨?_, ?_, ?_⟩
  · intro tok σ texts values harity hparts
    cases values with
    | nil =>
      simp only [List.length_nil, Nat.zero_add] at harity
      refine ⟨(σ.alloc texts).1, ⟨tok, .building σ.next, none⟩, ?_, ?_⟩
      · rw [templateWith]
        show ctorFn (σ.alloc texts).1 tok (σ.alloc texts).2 [] = _
        rw [ctorFn, if_pos (by simp)]
        rw [Store.alloc_snd]
      · rw [FragValInv, fragCount]
        simp only [Store.read_alloc_self, valCount, Option.getD_none,
          List.length_nil]
        rw [harity]
    | cons v0 vrest =>
      have hvne : v0 :: vrest ≠ ([] : List CtorValue) := by simp
      have hsrc : σ.next < (σ.alloc texts).1.next := by simp
      have hlenA : ((σ.alloc texts).1.read σ.next).length
          = (v0 :: vrest).length + 1 := by
        rw [Store.read_alloc_self]
        exact harity
      obtain ⟨σ', acc', heq, hlen', _⟩ :=
        ctorFn_ok (σ.alloc texts).1 tok σ.next (v0 :: vrest) hvne hsrc hlenA
          (by intro q hq
              obtain ⟨rp, h1, h2, h3⟩ := hparts q hq
              have hrpne : rp ≠ σ.next := Nat.ne_of_lt h2
              refine ⟨rp, h1, ?_, hrpne, ?_⟩
              · rw [Store.next_alloc]
                omega
              · rw [Store.read_alloc_ne _ texts hrpne]
                exact h3)
      refine ⟨σ', ⟨tok, .building (σ.alloc texts).1.next, some acc'⟩, ?_, ?_⟩
      · rw [templateWith]
        show ctorFn (σ.alloc texts).1 tok (σ.alloc texts).2 (v0 :: vrest) = _
        rw [Store.alloc_snd, heq]
      · exact hlen'
  · intro σ b r part hb hinv hpart σ' b' h
    have hq0 : ∃ q0 qrest, σ.read r = q0 :: qrest := by
      rw [FragValInv, fragCount_building hb] at hinv
      cases hread : σ.read r with
      | nil => rw [hread] at hinv; simp at hinv
      | cons a as => exact ⟨a, as, rfl⟩
    obtain ⟨q0, qrest, hq⟩ := hq0
    have hqlen : qrest.length = valCount b := by
      rw [FragValInv, fragCount_building hb, hq] at hinv
      simpa using hinv
    cases part with
    | raw sraw =>
      simp only [appendInternal, hb, partTexts, hq] at h
      simp only [List.length_cons, Nat.succ_ne_zero, if_false,
        Option.some.injEq, Prod.mk.injEq] at h
      obtain ⟨hσ, hb'⟩ := h
      subst hσ
      subst hb'
      rw [FragValInv, fragCount]
      simp only [hb, Store.read_write_self]
      simp only [List.length_append, concatLast_length, List.length_cons,
        List.length_nil, valCount]
      rw [hqlen]
      simp [valCount]
    | builder pb =>
      obtain ⟨rp, hp, hinvp⟩ := hpart
      have hF0 : ∃ f0 frest, σ.read rp = f0 :: frest := by
        rw [FragValInv, fragCount_building hp] at hinvp
        cases hread : σ.read rp with
        | nil => rw [hread] at hinvp; simp at hinvp
        | cons a as => exact ⟨a, as, rfl⟩
      obtain ⟨f0, frest, hF⟩ := hF0
      have hflen : frest.length = valCount pb := by
        rw [FragValInv, fragCount_building hp, hF] at hinvp
        simpa using hinvp
      cases hpv : pb.values with
      | none =>
        simp only [appendInternal, hb, partTexts, hp, hq, hF, hpv] at h
        simp only [List.length_cons, Nat.succ_ne_zero, if_false,
          Option.some.injEq, Prod.mk.injEq] at h
        obtain ⟨hσ, hb'⟩ := h
        subst hσ
        subst hb'
        rw [FragValInv, fragCount]
        simp only [hb, Store.read_write_self]
        simp only [List.length_append, concatLast_length, List.length_cons]
        have hfl0 : frest.length = 0 := by
          rw [hflen, valCount, hpv]
          rfl
        rw [hfl0, hqlen]
        simp [valCount]
      | some pv =>
        simp only [appendInternal, hb, partTexts, hp, hq, hF, hpv] at h
        simp only [List.length_cons, Nat.succ_ne_zero, if_false,
          Option.some.injEq, Prod.mk.injEq] at h
        obtain ⟨hσ, hb'⟩ := h
        subst hσ
        subst hb'
        rw [FragValInv, fragCount]
        simp only [hb, Store.read_write_self]
        simp only [List.length_append, concatLast_length, List.length_cons]
        have hfl : frest.length = pv.length := by
          rw [hflen, valCount, hpv]
          rfl
        cases hmv : b.values with
        | none =>
          rw [FragValInv, fragCount_building hb, hq, valCount, hmv] at hinv
          simp only [Option.getD_none, List.length_nil, List.length_cons] at hinv
          rw [valCount]
          simp only [Option.getD_some]
          rw [hfl]
          omega
        | some mv =>
          rw [FragValInv, fragCount_building hb, hq, valCount, hmv] at hinv
          simp only [Option.getD_some, List.length_cons] at hinv
          rw [valCount]
          simp only [Option.getD_some]
          simp only [List.length_append]
          rw [hfl]
          omega
  · intro σ b r hb hr hinv σ' c h
    rw [QueryStringBuilder.clone, hb] at h
    replace h : ctorFn σ b.tokenForIndex r
        ((b.values.getD []).map CtorValue.plain) = some (σ', c) := h
    cases hbv : b.values.getD [] with
    | nil =>
      rw [hbv] at h
      simp only [List.map_nil, ctorFn, List.isEmpty_nil, if_true,
        Option.some.injEq, Prod.mk.injEq] at h
      obtain ⟨hσ, hc⟩ := h
      subst hσ
      subst hc
      rw [FragValInv, fragCount_building hb, valCount, hbv] at hinv
      simp only [List.length_nil] at hinv
      rw [FragValInv, fragCount_building (show (QueryStringBuilder.mk
        b.tokenForIndex (QTexts.building r) none).queryTexts
          = QTexts.building r from rfl)]
      simp [valCount, hinv]
    | cons v rest =>
      rw [hbv] at h
      have hvc : valCount b = (v :: rest).length := by
        rw [valCount, hbv]
      have hlen : (σ.read r).length = ((v :: rest).map CtorValue.plain).length + 1 := by
        rw [List.length_map, ← hvc]
        rw [FragValInv, fragCount_building hb] at hinv
        exact hinv
      obtain ⟨σ'', acc', heq, hlen', _⟩ :=
        ctorFn_ok σ b.tokenForIndex r ((v :: rest).map CtorValue.plain)
          (by simp) hr hlen
          (by intro q hqmem
              simp only [List.mem_map] at hqmem
              obtain ⟨a, _, ha⟩ := hqmem
              cases ha)
      rw [heq] at h
      simp only [Option.some.injEq, Prod.mk.injEq] at h
      obtain ⟨hσ, hc⟩ := h
      subst hσ
      subst hc
      exact hlen'

/-- C5: nested builder splicing is a concatenation homomorphism.  For any
unfinalized builder `n` (with the `sql` token function and the
fragment/value count invariant) and literal texts `p`/`s`, the template
constructor applied to `(p, n, s)` succeeds, and building the result gives
text `p ++ n-built-text ++ s` — no extra characters at either seam — and
exactly `n`'s built values. -/
theorem nested_splice (σ : Store) (n : QueryStringBuilder) (rn : Nat)
    (p s : String) (hb : n.queryTexts = .building rn) (hr : rn < σ.next)
    (htok : n.tokenForIndex = sqlTok) (hinv : FragValInv σ n) :
    (sql σ [p, s] [.builder n]).isSome = true ∧
    ∀ σ1 outer, sql σ [p, s] [.builder n] = some (σ1, outer) →
      buildText σ1 outer = p ++ buildText σ n ++ s ∧
      buildValues σ1 outer = buildValues σ n := by
  have hlen0 : (σ.read rn).length = (n.values.getD []).length + 1 := by
    have hfc : fragCount σ n = (σ.read rn).length := by simp [fragCount, hb]
    rw [← hfc]
    exact hinv
  cases hF : σ.read rn with
  | nil => rw [hF] at hlen0; simp at hlen0
  | cons f0 frest =>
    have hflen : frest.length = (n.values.getD []).length := by
      rw [hF] at hlen0
      simpa using hlen0
    obtain ⟨σ1', heq, hread⟩ :=
      templateWith_single_builder sqlTok σ n rn p s f0 frest hb hr hF
    have hsql : sql σ [p, s] [.builder n]
        = some (σ1', ⟨sqlTok, .building (σ.next + 1), some (n.values.getD [])⟩) := heq
    constructor
    · rw [hsql]
      rfl
    · intro σ1 outer h
      rw [hsql] at h
      simp only [Option.some.injEq, Prod.mk.injEq] at h
      obtain ⟨hσ, hout⟩ := h
      subst hσ
      subst hout
      rw [buildText_eq_core (σ := σ1')
          (show QTexts.building (σ.next + 1) = QTexts.building (σ.next + 1) from rfl),
        buildValues_eq_core (σ := σ1')
          (show QTexts.building (σ.next + 1) = QTexts.building (σ.next + 1) from rfl),
        buildText_eq_core hb, buildValues_eq_core hb, htok, hF, hread]
      cases hnv : n.values with
      | none =>
        have hfrest : frest = [] := by
          rw [hnv] at hflen
          simpa using List.length_eq_zero.mp (by simpa using hflen)
        subst hfrest
        simp [buildCore, concatLast, joinAll, String.append_assoc,
          String.append_empty]
      | some nv =>
        cases nv with
        | nil =>
          have hfrest : frest = [] := by
            rw [hnv] at hflen
            simpa using List.length_eq_zero.mp (by simpa using hflen)
          subst hfrest
          simp [buildCore, concatLast, joinAll, String.append_assoc,
            String.append_empty]
        | cons v vrest =>
          rw [hnv] at hflen
          simp only [Option.getD_some, List.length_cons] at hflen
          have hfne : frest ≠ [] := by
            cases frest with
            | nil => simp at hflen
            | cons a b => simp
          have hElen : (emits sqlTok [] (v :: vrest)).length = frest.length := by
            rw [emits_length]
            simpa using hflen.symm
          have hEne : emits sqlTok [] (v :: vrest) ≠ [] := by simp [emits]
          have hIne : interleave (emits sqlTok [] (v :: vrest)) frest ≠ [] :=
            interleave_ne_nil hEne
          simp only [Option.getD_some]
          rw [concatLast_cons_of_ne _ _ _ hfne]
          have hle1 : (v :: vrest).length ≤ (concatLast frest s).length := by
            rw [concatLast_length, List.length_cons]
            omega
          have hle2 : (v :: vrest).length ≤ frest.length := by
            rw [List.length_cons]
            omega
          rw [buildCore_eq_spec sqlTok (p ++ f0) (concatLast frest s) (v :: vrest)
            (by simp) hle1]
          rw [buildCore_eq_spec sqlTok f0 frest (v :: vrest)
            (by simp) hle2]
          rw [interleave_concatLast _ frest s (le_of_eq hElen) hfne]
          constructor
          · show joinAll ((p ++ f0)
                :: concatLast (interleave (emits sqlTok [] (v :: vrest)) frest) s)
              = p ++ joinAll (f0 :: interleave (emits sqlTok [] (v :: vrest)) frest) ++ s
            simp only [joinAll, joinAll_concatLast _ _ hIne]
            simp [String.append_assoc]
          · rfl

theorem nested_splice_witness :
    (QueryStringBuilder.mk sqlTok (.building 0) (some [QueryValue.int 42])).queryTexts
      = .building 0 ∧
    (0 : Nat) < (emptyStore.alloc ["x = ", ""]).1.next ∧
    (QueryStringBuilder.mk sqlTok (.building 0)
      (some [QueryValue.int 42])).tokenForIndex = sqlTok ∧
    FragValInv (emptyStore.alloc ["x = ", ""]).1
      (QueryStringBuilder.mk sqlTok (.building 0) (some [QueryValue.int 42])) ∧
    (sql (emptyStore.alloc ["x = ", ""]).1 ["SELECT ", " END"]
      [.builder (QueryStringBuilder.mk sqlTok (.building 0)
        (some [QueryValue.int 42]))]).isSome = true :=
  ⟨rfl, by decide, rfl, by unfold FragValInv; decide,
    (nested_splice (emptyStore.alloc ["x = ", ""]).1
      (QueryStringBuilder.mk sqlTok (.building 0) (some [QueryValue.int 42])) 0
      "SELECT " " END" rfl (by decide) rfl (by unfold FragValInv; decide)).1⟩

theorem clone_finalized_fails_witness :
    (QueryStringBuilder.mk sqlTok (.built "q") none).queryTexts = .built "q" ∧
    QueryStringBuilder.clone emptyStore
      (QueryStringBuilder.mk sqlTok (.built "q") none) = none :=
  ⟨rfl, clone_finalized_fails.1 emptyStore
    (QueryStringBuilder.mk sqlTok (.built "q") none) "q" rfl⟩

theorem contract_violations_throw_witness :
    (QueryStringBuilder.mk sqlTok (.built "q") none).queryTexts = .built "q" ∧
    QueryStringBuilder.appendRawString emptyStore
      (QueryStringBuilder.mk sqlTok (.built "q") none) "x" = none ∧
    ([CtorValue.plain (QueryValue.int 1)] ≠ ([] : List CtorValue)) ∧
    ((emptyStore.read 0).length < [CtorValue.plain (QueryValue.int 1)].length + 1) ∧
    ctorFn emptyStore sqlTok 0 [CtorValue.plain (QueryValue.int 1)] = none ∧
    joinSQL emptyStore [] "|" = none :=
  ⟨rfl,
    contract_violations_throw.2.1 emptyStore
      (QueryStringBuilder.mk sqlTok (.built "q") none) "q" "x" rfl,
    by simp, by decide,
    contract_violations_throw.2.2.1 emptyStore sqlTok 0
      [CtorValue.plain (QueryValue.int 1)] (by simp) (by decide),
    contract_violations_throw.2.2.2.1 emptyStore "|"⟩

theorem fragment_value_invariant_witness :
    ((["x"] : List String).length = ([] : List CtorValue).length + 1) ∧
    (∃ σ' b', templateWith sqlTok emptyStore ["x"] [] = some (σ', b')
      ∧ FragValInv σ' b') :=
  ⟨by decide,
    fragment_value_invariant.1 sqlTok emptyStore ["x"] [] (by decide)
      (by intro p hp; simp at hp)⟩

theorem build_dedup_witness :
    ([QueryValue.str "foo", QueryValue.int 5,
        QueryValue.str "foo", QueryValue.int 5] ≠ []) ∧
    ([QueryValue.str "foo", QueryValue.int 5,
        QueryValue.str "foo", QueryValue.int 5].length
      ≤ ([" ", " ", " ", ""] : List String).length) ∧
    (∀ v ∈ [QueryValue.str "foo", QueryValue.int 5,
        QueryValue.str "foo", QueryValue.int 5], isScalar v = true) ∧
    (buildCore sqlTok ("" :: [" ", " ", " ", ""])
        (some [QueryValue.str "foo", QueryValue.int 5,
          QueryValue.str "foo", QueryValue.int 5])).2.2
      = some (finalD [] [QueryValue.str "foo", QueryValue.int 5,
          QueryValue.str "foo", QueryValue.int 5]) :=
  ⟨by decide, by decide, by decide,
    (build_dedup sqlTok "" [" ", " ", " ", ""]
      [QueryValue.str "foo", QueryValue.int 5, QueryValue.str "foo", QueryValue.int 5]
      (by decide) (by decide) (by decide)).1⟩

theorem unsafe_literal_bypass_witness :
    (([] : List String).length = ([] : List QueryValue).length) ∧
    (([] : List QueryValue).length ≤ ([] : List String).length) ∧
    (buildCore sqlTok ("select " :: (([] : List String) ++ "" :: []))
        (some (([] : List QueryValue) ++ QueryValue.unsafeLit "my_table" :: []))).2.1
      = joinAll ("select " :: interleave (emits sqlTok [] []) []) ++ "my_table"
          ++ joinAll ("" :: interleave (emits sqlTok (finalD [] []) []) []) :=
  ⟨by decide, by decide,
    (unsafe_literal_bypass sqlTok "my_table" "select " "" [] [] [] []
      (by decide) (by decide)).2⟩

theorem nan_strict_equality_witness :
    (([] : List String).length = ([] : List QueryValue).length) ∧
    (([] : List QueryValue).length ≤ ([] : List String).length) ∧
    (buildCore sqlTok ("" :: (([] : List String) ++ "" :: []))
        (some (([] : List QueryValue) ++ QueryValue.nan :: []))).2.2
      = some (finalD [] (([] : List QueryValue) ++ [])) :=
  ⟨by decide, by decide,
    (nan_strict_equality.2.1 sqlTok "" "" [] [] [] [] (by decide) (by decide)).1⟩

theorem values_absent_reporting_witness :
    (QueryStringBuilder.mk sqlTok (.building 0)
        (some [QueryValue.unsafeLit "x"])).queryTexts = .building 0 ∧
    (QueryStringBuilder.mk sqlTok (.building 0)
        (some [QueryValue.unsafeLit "x"])).values = some [QueryValue.unsafeLit "x"] ∧
    ([QueryValue.unsafeLit "x"] ≠ []) ∧
    (∀ v ∈ [QueryValue.unsafeLit "x"], isUnsafeLit v = true) ∧
    FragValInv (emptyStore.alloc ["a", ""]).1
      (QueryStringBuilder.mk sqlTok (.building 0) (some [QueryValue.unsafeLit "x"])) ∧
    buildValues (emptyStore.alloc ["a", ""]).1
      (QueryStringBuilder.mk sqlTok (.building 0) (some [QueryValue.unsafeLit "x"]))
      = some [] :=
  ⟨rfl, rfl, by decide, by decide, by unfold FragValInv; decide,
    values_absent_reporting.2 (emptyStore.alloc ["a", ""]).1
      (QueryStringBuilder.mk sqlTok (.building 0) (some [QueryValue.unsafeLit "x"]))
      0 [QueryValue.unsafeLit "x"] rfl rfl (by decide) (by decide)
      (by unfold FragValInv; decide)⟩

end SqlSB
